import Mathlib

/-!
Verification of the clvm tree value model and serialization codec.

The value model (`SExp`, `listp`, `nullp`, `first`, `rest`, `as_atom`,
`pyEq`) is a shallow embedding of `clvm/subclass_sexp.py`.  The
serialization codec (atom length-prefix encoding, tree encoder with
optional back-reference compression, tree decoder, buffer scanner) is not
part of the visible sources; it is modelled from the specification
(sections 4.2-4.6 of the design document), with names taken from the
symbols the test-suite imports (`atom_to_byte_iterator`,
`sexp_from_stream`, `sexp_buffer_from_stream`).
-/

/-! ## Value model, from `clvm/subclass_sexp.py` -/

/-- The internal value `self.v` of a `BaseSExp`: `__init__` asserts that
`v` is `None`, a 2-tuple of values, or `bytes` (lines 45-51 of
`subclass_sexp.py`).  Bytes are modelled as `List Nat`. -/
inductive SExp where
  | noneV : SExp
  | atom (bs : List Nat) : SExp
  | pair (a b : SExp) : SExp
deriving DecidableEq

/-- Errors raised by the value-model operations: `EvalError(msg, ...)`
from `first`/`rest`, and the failure of the bare `assert` in `as_atom`. -/
inductive PyError where
  | evalError (msg : String)
  | assertionError
deriving DecidableEq

/-- Modelled from the spec: section 7 classifies any failure of an
atom-only operation applied to a Pair or a pair-only operation applied to
an Atom as a TypeMismatch error.  In the source these failures surface as
`EvalError("first of non-cons", ...)`, `EvalError("rest of non-cons", ...)`
or an `AssertionError`. -/
def TypeMismatch (e : PyError) : Prop :=
  e = .evalError "first of non-cons" ∨ e = .evalError "rest of non-cons" ∨
    e = .assertionError

/-- `BaseSExp.listp`: `isinstance(self.v, (None.__class__, tuple))`. -/
def listp : SExp → Bool
  | .noneV => true
  | .pair _ _ => true
  | .atom _ => false

/-- `BaseSExp.first`: returns `self.v[0]` when `self.v` is a tuple, else
raises `EvalError("first of non-cons", self)`. -/
def first : SExp → Except PyError SExp
  | .pair a _ => .ok a
  | _ => .error (.evalError "first of non-cons")

/-- `BaseSExp.rest`: returns `self.v[1]` when `self.v` is a tuple, else
raises `EvalError("rest of non-cons", self)`. -/
def rest : SExp → Except PyError SExp
  | .pair _ b => .ok b
  | _ => .error (.evalError "rest of non-cons")

/-- `BaseSExp.as_atom`: `assert not self.listp(); return self.v`.  The
assertion fails (AssertionError) exactly when `self.v` is `None` or a
tuple; otherwise the raw bytes are returned. -/
def as_atom : SExp → Except PyError (List Nat)
  | .atom bs => .ok bs
  | _ => .error .assertionError

/-- `BaseSExp.__eq__`: `other.v == self.v` under Python equality.  `None`
equals only `None`; bytes compare bytewise; tuples compare componentwise,
re-entering `__eq__` on the components. -/
def pyEq : SExp → SExp → Bool
  | .noneV, .noneV => true
  | .atom a, .atom b => a == b
  | .pair a b, .pair c d => pyEq a c && pyEq b d
  | _, _ => false

/-- `SExp.__null__` for the class built by `subclass_sexp` with its
default arguments (`false=None`, line 95): the singleton returned by
`null()` and by `to(None)`, internally represented by `None`. -/
def null_default : SExp := .noneV

/-- `BaseSExp.nullp`: `self == self.__null__`. -/
def nullp (s : SExp) : Bool := pyEq s null_default

/-! ## Serialization codec, modelled from the spec -/

/-- Modelled from the spec: the decode/encode error kinds of section 7
(TypeMismatch is separate, at the value-model level). -/
inductive CodecError where
  | malformedInput
  | unexpectedEndOfInput
  | sizeLimitExceeded
  | invalidBackReference
deriving DecidableEq

/-- Modelled from the spec: the Tree Value Model of section 3 that the
codec serializes — a Value is exactly an Atom (opaque byte string) or a
Pair of two Values. -/
inductive Value where
  | atom (bs : List Nat)
  | pair (a b : Value)
deriving DecidableEq

/-- Modelled from the spec: the maximum supported atom byte-length, the
configuration constant of section 9 pinned by the tests
(`test_blob_limit` rejects a length of `0x400000001`;
`test_deserialize_large_blob` rejects a claimed length of `2^48 - 1`). -/
def MAX_ATOM_SIZE : Nat := 0x400000000

/-- Modelled from the spec: the atom length-prefix encoder of section 4.2.
Tier markers carry the high bits of the length; each wider tier adds one
length byte.  Lengths at or beyond `MAX_ATOM_SIZE` are rejected with
SizeLimitExceeded before any bytes are emitted. -/
def atom_to_byte_iterator (bs : List Nat) : Except CodecError (List Nat) :=
  let size := bs.length
  if size = 0 then .ok [0x80]
  else if size = 1 ∧ bs.headD 0 < 0x80 then .ok bs
  else if size < 0x40 then .ok ((0x80 + size) :: bs)
  else if size < 0x2000 then
    .ok ((0xC0 + size / 0x100) :: size % 0x100 :: bs)
  else if size < 0x100000 then
    .ok ((0xE0 + size / 0x10000) :: size / 0x100 % 0x100 :: size % 0x100 :: bs)
  else if size < 0x8000000 then
    .ok ((0xF0 + size / 0x1000000) :: size / 0x10000 % 0x100 ::
      size / 0x100 % 0x100 :: size % 0x100 :: bs)
  else if size < 0x400000000 then
    .ok ((0xF8 + size / 0x100000000) :: size / 0x1000000 % 0x100 ::
      size / 0x10000 % 0x100 :: size / 0x100 % 0x100 :: size % 0x100 :: bs)
  else .error .sizeLimitExceeded

/-- Modelled from the spec: number of leading 1-bits of the first byte of
an atom encoding (section 4.3); it determines how many extra length-field
bytes follow. -/
def leadingOnes (b0 : Nat) : Nat :=
  if 0xFF ≤ b0 then 8
  else if 0xFE ≤ b0 then 7
  else if 0xFC ≤ b0 then 6
  else if 0xF8 ≤ b0 then 5
  else if 0xF0 ≤ b0 then 4
  else if 0xE0 ≤ b0 then 3
  else if 0xC0 ≤ b0 then 2
  else if 0x80 ≤ b0 then 1
  else 0

/-- Modelled from the spec: the atom decoder of section 4.3.  `b0` is the
already-read first byte and `s` the stream after it.  Reads the length
field, checks the size limit before touching the payload, then reads the
payload, returning it with the remaining stream. -/
def atom_from_stream (s : List Nat) (b0 : Nat) :
    Except CodecError (List Nat × List Nat) :=
  if b0 = 0x80 then .ok ([], s)
  else if b0 < 0x80 then .ok ([b0], s)
  else
    let extra := leadingOnes b0 - 1
    if s.length < extra then .error .unexpectedEndOfInput
    else
      let size := (s.take extra).foldl (fun a b => a * 0x100 + b)
        (b0 % 2 ^ (8 - leadingOnes b0))
      if MAX_ATOM_SIZE ≤ size then .error .sizeLimitExceeded
      else if (s.drop extra).length < size then .error .unexpectedEndOfInput
      else .ok ((s.drop extra).take size, (s.drop extra).drop size)

/-- Result of parsing one Value from a byte stream: the Value, the
remaining stream (strictly shorter than the input: every encoding has at
least one byte), the updated absolute position, and the updated
offset-to-Value table of section 4.5. -/
structure PRes (n : Nat) where
  val : Value
  rest : List Nat
  pos : Nat
  tbl : List (Nat × Value)
  hlt : rest.length < n

/-- First-match lookup in an association list, newest entry first. -/
def lookupTbl {α : Type} : List (Nat × α) → Nat → Option α
  | [], _ => none
  | (k, v) :: t, i => if k = i then some v else lookupTbl t i

/-- Big-endian value of a byte string (used to decode a back-reference's
distance payload). -/
def bytesToInt (bs : List Nat) : Nat :=
  bs.foldl (fun a b => a * 0x100 + b) 0

/-- Minimal big-endian byte string of a natural number, fuel-indexed
(structural recursion so the encoder evaluates by kernel reduction). -/
def intToBytesF : Nat → Nat → List Nat
  | 0, _ => []
  | fuel + 1, n => if n = 0 then [] else intToBytesF fuel (n / 0x100) ++ [n % 0x100]

/-- Minimal big-endian byte string of a natural number (the back-reference
distance payload; `0` encodes as the empty string). -/
def intToBytes (n : Nat) : List Nat := intToBytesF n n

/-- Modelled from the spec: reading a back-reference's payload — the atom
(read with the ordinary atom grammar) that carries the big-endian
distance back to the referenced object's start offset. -/
def backref_from_stream (t : List Nat) :
    Except CodecError (List Nat × List Nat) :=
  match t with
  | [] => .error .unexpectedEndOfInput
  | b1 :: t1 => atom_from_stream t1 b1

/-- Modelled from the spec: the Tree Decoder of section 4.5.  `pos` is the
absolute offset of the start of `s` in the original stream and `tbl` maps
the start offset of each already-completed object to its Value (populated
only when `allow` is true).  Byte `0xFF` introduces a Pair; byte `0xFE`
is a back-reference when backref support is enabled and a MalformedInput
error otherwise; any other byte starts an atom.  A back-reference whose
target offset is absent from the table is an InvalidBackReference. -/
def parseSexp (allow : Bool) :
    (s : List Nat) → Nat → List (Nat × Value) → Except CodecError (PRes s.length)
  | [], _, _ => .error .unexpectedEndOfInput
  | b0 :: t, pos, tbl =>
    if b0 = 0xFF then
      match parseSexp allow t (pos + 1) tbl with
      | .error e => .error e
      | .ok r1 =>
        match parseSexp allow r1.rest r1.pos r1.tbl with
        | .error e => .error e
        | .ok r2 =>
          .ok ⟨.pair r1.val r2.val, r2.rest, r2.pos,
            if allow then (pos, Value.pair r1.val r2.val) :: r2.tbl else r2.tbl,
            by have := r1.hlt; have := r2.hlt; simp only [List.length_cons]; omega⟩
    else if b0 = 0xFE then
      if allow then
        match hat : backref_from_stream t with
        | .error e => .error e
        | .ok (dbs, ar) =>
          match lookupTbl tbl (pos - bytesToInt dbs) with
          | none => .error .invalidBackReference
          | some v =>
            .ok ⟨v, ar, pos + 1 + (t.length - ar.length), (pos, v) :: tbl,
              by
                have hle : ar.length < t.length := by
                  cases t with
                  | nil => simp [backref_from_stream] at hat
                  | cons b1 t1 =>
                    simp only [backref_from_stream] at hat
                    have h2 : ar.length ≤ t1.length := by
                      simp only [atom_from_stream] at hat
                      split_ifs at hat <;> simp at hat <;>
                        obtain ⟨-, rfl⟩ := hat <;>
                        first
                          | exact le_refl _
                          | (simp only [List.length_drop]; omega)
                    simp only [List.length_cons]; omega
                simp only [List.length_cons]; omega⟩
      else .error .malformedInput
    else
      match hat : atom_from_stream t b0 with
      | .error e => .error e
      | .ok (abs, ar) =>
        .ok ⟨.atom abs, ar, pos + 1 + (t.length - ar.length),
          if allow then (pos, Value.atom abs) :: tbl else tbl,
          by
            have hle : ar.length ≤ t.length := by
              simp only [atom_from_stream] at hat
              split_ifs at hat <;> simp at hat <;>
                obtain ⟨-, rfl⟩ := hat <;>
                first
                  | exact le_refl _
                  | (simp only [List.length_drop]; omega)
            simp only [List.length_cons]; omega⟩
termination_by s _ _ => s.length
decreasing_by
  · simp only [List.length_cons]; omega
  · have := r1.hlt; simp only [List.length_cons]; omega

/-- Projection of `parseSexp` onto its data (Value, remaining stream,
position, table), for stating lemmas without the embedded proof field. -/
def parseT (allow : Bool) (s : List Nat) (pos : Nat) (tbl : List (Nat × Value)) :
    Except CodecError (Value × List Nat × Nat × List (Nat × Value)) :=
  (parseSexp allow s pos tbl).map (fun r => (r.val, r.rest, r.pos, r.tbl))

/-- Modelled from the spec: the top-level Tree Decoder entry point.
Decodes one Value from the head of the stream and returns it with the
unconsumed suffix. -/
def sexp_from_stream (blob : List Nat) (allow_backrefs : Bool) :
    Except CodecError (Value × List Nat) :=
  match parseSexp allow_backrefs blob 0 [] with
  | .ok r => .ok (r.val, r.rest)
  | .error e => .error e

/-- Result of scanning one encoded Value: the remaining stream. -/
structure SRes (n : Nat) where
  rest : List Nat
  hlt : rest.length < n

/-- Modelled from the spec: the Buffer Scanner of section 4.6.  Follows
the byte-level grammar exactly as the Tree Decoder does — descending into
both components of a Pair on `0xFF`, skipping an atom's length field and
payload, and on `0xFE` either failing (backref support disabled) or
skipping the length-prefixed distance payload — without building any
Value. -/
def scanSexp (allow : Bool) : (s : List Nat) → Except CodecError (SRes s.length)
  | [] => .error .unexpectedEndOfInput
  | b0 :: t =>
    if b0 = 0xFF then
      match scanSexp allow t with
      | .error e => .error e
      | .ok r1 =>
        match scanSexp allow r1.rest with
        | .error e => .error e
        | .ok r2 =>
          .ok ⟨r2.rest, by
            have := r1.hlt; have := r2.hlt; simp only [List.length_cons]; omega⟩
    else if b0 = 0xFE then
      if allow then
        match hat : backref_from_stream t with
        | .error e => .error e
        | .ok (_, ar) =>
          .ok ⟨ar, by
            have hle : ar.length < t.length := by
              cases t with
              | nil => simp [backref_from_stream] at hat
              | cons b1 t1 =>
                simp only [backref_from_stream] at hat
                have h2 : ar.length ≤ t1.length := by
                  simp only [atom_from_stream] at hat
                  split_ifs at hat <;> simp at hat <;>
                    obtain ⟨-, rfl⟩ := hat <;>
                    first
                      | exact le_refl _
                      | (simp only [List.length_drop]; omega)
                simp only [List.length_cons]; omega
            simp only [List.length_cons]; omega⟩
      else .error .malformedInput
    else
      match hat : atom_from_stream t b0 with
      | .error e => .error e
      | .ok (_, ar) =>
        .ok ⟨ar, by
          have hle : ar.length ≤ t.length := by
            simp only [atom_from_stream] at hat
            split_ifs at hat <;> simp at hat <;>
              obtain ⟨-, rfl⟩ := hat <;>
              first
                | exact le_refl _
                | (simp only [List.length_drop]; omega)
          simp only [List.length_cons]; omega⟩
termination_by s => s.length
decreasing_by
  · simp only [List.length_cons]; omega
  · have := r1.hlt; simp only [List.length_cons]; omega

/-- Modelled from the spec: the Buffer Scanner entry point.  Returns the
exact byte span of one encoded Value together with the unconsumed
suffix. -/
def sexp_buffer_from_stream (blob : List Nat) (allow_backrefs : Bool) :
    Except CodecError (List Nat × List Nat) :=
  match scanSexp allow_backrefs blob with
  | .ok r => .ok (blob.take (blob.length - r.rest.length), r.rest)
  | .error e => .error e

/-- Modelled from the spec: the uncompressed Tree Encoder of section 4.4.
A Pair emits marker `0xFF` followed by the encodings of `first` then
`rest`; an Atom emits its length-prefixed encoding.  An oversized atom
aborts the whole encode with SizeLimitExceeded. -/
def sexp_to_byte_iterator : Value → Except CodecError (List Nat)
  | .atom bs => atom_to_byte_iterator bs
  | .pair a b =>
    match sexp_to_byte_iterator a, sexp_to_byte_iterator b with
    | .ok ba, .ok bb => .ok (0xFF :: ba ++ bb)
    | .error e, _ => .error e
    | .ok _, .error e => .error e

/-- Modelled from the spec: a node of the in-memory object graph handed to
the compressed encoder.  Sharing in section 4.4 is by object identity, so
the encoder's input is a graph: a list of nodes in which a Pair holds the
indices (identities) of its two children, and each node's children were
constructed before it (indices strictly smaller — `WfDag`). -/
inductive NodeD where
  | atom (bs : List Nat)
  | pair (l r : Nat)
deriving DecidableEq

/-- A node is well-placed at index `i` when its children (if any) have
strictly smaller indices. -/
def wfNode (nd : NodeD) (i : Nat) : Prop :=
  match nd with
  | .atom _ => True
  | .pair l r => l < i ∧ r < i

instance (nd : NodeD) (i : Nat) : Decidable (wfNode nd i) := by
  cases nd with
  | atom bs => exact .isTrue trivial
  | pair l r => exact instDecidableAnd

/-- Each Pair node's children have strictly smaller indices: the object
graph is acyclic with children constructed before their parents. -/
def WfDag (g : List NodeD) : Prop :=
  ∀ i, i < g.length → wfNode (g.getD i (.atom [])) i

instance (g : List NodeD) : Decidable (WfDag g) :=
  Nat.decidableBallLT _ _

/-- The Value denoted by node `i` of the object graph, with enough fuel;
out-of-range nodes denote the empty atom. -/
def denoteAt (g : List NodeD) : Nat → Nat → Value
  | 0, _ => .atom []
  | fuel + 1, i =>
    match g.getD i (.atom []) with
    | .atom bs => .atom bs
    | .pair l r => .pair (denoteAt g fuel l) (denoteAt g fuel r)

/-- The Value denoted by node `i` of the object graph. -/
def denoteD (g : List NodeD) (i : Nat) : Value := denoteAt g (i + 1) i

/-- Length of the encoding `atom_to_byte_iterator` would produce (`0` for
an atom beyond the supported size, which cannot be encoded at all). -/
def atomEncLen (bs : List Nat) : Nat :=
  match atom_to_byte_iterator bs with
  | .ok b => b.length
  | .error _ => 0

/-- Uncompressed serialized lengths of the first `n` nodes of the object
graph, computed in construction order so each entry can reuse the entries
of its (smaller-index) children. -/
def serPrefix (g : List NodeD) : Nat → List Nat
  | 0 => []
  | n + 1 =>
    let acc := serPrefix g n
    acc ++ [match g.getD n (.atom []) with
      | .atom bs => atomEncLen bs
      | .pair l r => 1 + acc.getD l 1 + acc.getD r 1]

/-- Uncompressed serialized length of every node of the object graph. -/
def serLens (g : List NodeD) : List Nat := serPrefix g g.length

/-- State of the compressed encoder: the identity-keyed table from node
index to the byte offset at which that object's encoding began, and the
current output offset. -/
structure EncSt where
  tbl : List (Nat × Nat)
  pos : Nat

/-- Modelled from the spec: the compressed Tree Encoder of section 4.4.
Before encoding a node it consults the identity-keyed table; on a hit it
emits marker `0xFE` followed by the length-prefixed big-endian distance
from the current offset back to the recorded offset — but only when that
back-reference is strictly shorter than re-encoding the node, so that
compression never expands the output (section 8).  Otherwise it encodes
normally, recording the current offset against the node's identity before
recursing into its children.  `fuel` dominates the node index (`WfDag`
makes children strictly smaller, so `i + 1` fuel always suffices). -/
def sexp_to_byte_iterator_with_backrefs (g : List NodeD) :
    Nat → Nat → EncSt → Except CodecError (List Nat × EncSt)
  | 0, _, st => .ok ([], st)
  | fuel + 1, i, st =>
    let br? : Option (List Nat × EncSt) :=
      match lookupTbl st.tbl i with
      | some off =>
        match atom_to_byte_iterator (intToBytes (st.pos - off)) with
        | .ok a =>
          if a.length + 1 < (serLens g).getD i 0 then
            some (0xFE :: a, ⟨st.tbl, st.pos + (a.length + 1)⟩)
          else none
        | .error _ => none
      | none => none
    match br? with
    | some res => .ok res
    | none =>
      match g.getD i (.atom []) with
      | .atom bs =>
        match atom_to_byte_iterator bs with
        | .error e => .error e
        | .ok ab => .ok (ab, ⟨(i, st.pos) :: st.tbl, st.pos + ab.length⟩)
      | .pair l r =>
        match sexp_to_byte_iterator_with_backrefs g fuel l
            ⟨(i, st.pos) :: st.tbl, st.pos + 1⟩ with
        | .error e => .error e
        | .ok (b1, st1) =>
          match sexp_to_byte_iterator_with_backrefs g fuel r st1 with
          | .error e => .error e
          | .ok (b2, st2) => .ok (0xFF :: b1 ++ b2, st2)

/-- Modelled from the spec: `as_bin(allow_backrefs=True)` — the compressed
encoding of the object graph rooted at node `root`. -/
def as_bin_with_backrefs (g : List NodeD) (root : Nat) :
    Except CodecError (List Nat) :=
  (sexp_to_byte_iterator_with_backrefs g (root + 1) root ⟨[], 0⟩).map Prod.fst

/-- The 44-byte test atom `b"the quick brown fox jumps over the lazy dogs"`. -/
def TEXT : List Nat :=
  [116, 104, 101, 32, 113, 117, 105, 99, 107, 32, 98, 114, 111, 119, 110,
   32, 102, 111, 120, 32, 106, 117, 109, 112, 115, 32, 111, 118, 101, 114,
   32, 116, 104, 101, 32, 108, 97, 122, 121, 32, 100, 111, 103, 115]

/-- The depth-`n` self-pairing tree `v₀ = TEXT atom`, `vᵢ = (vᵢ₋₁, vᵢ₋₁)`,
as a plain Value. -/
def bombTree : Nat → Value
  | 0 => .atom TEXT
  | n + 1 => .pair (bombTree n) (bombTree n)

/-- The same family as an object graph with shared identity: node `0` is
the atom, node `k + 1` pairs node `k` with itself. -/
def bombDag (n : Nat) : List NodeD :=
  .atom TEXT :: (List.range n).map (fun k => .pair k k)

/-- Projection of `scanSexp` onto its data (remaining stream). -/
def scanT (allow : Bool) (s : List Nat) : Except CodecError (List Nat) :=
  (scanSexp allow s).map (fun r => r.rest)

/-- Node `j` lies strictly inside the subtree of node `i` in the object
graph (one or more pair edges). -/
inductive Reaches (g : List NodeD) : Nat → Nat → Prop
  | childL {i l r : Nat} : g.getD i (.atom []) = .pair l r → Reaches g i l
  | childR {i l r : Nat} : g.getD i (.atom []) = .pair l r → Reaches g i r
  | step {i j k : Nat} : Reaches g i j → Reaches g j k → Reaches g i k

/-- Every binding of the first table is present (unshadowed) in the
second. -/
def TblLe {α : Type} (t1 t2 : List (Nat × α)) : Prop :=
  ∀ k v, lookupTbl t1 k = some v → lookupTbl t2 k = some v

/-- All keys of the table are below `p`. -/
def KeysLt {α : Type} (t : List (Nat × α)) (p : Nat) : Prop :=
  ∀ k v, lookupTbl t k = some v → k < p

/-- All offsets recorded in the encoder table are below `p`. -/
def OffLt (t : List (Nat × Nat)) (p : Nat) : Prop :=
  ∀ i off, lookupTbl t i = some off → off < p

/-- Encoder/decoder table agreement relative to the node `i` being
encoded: every encoder binding `id ↦ off` is either already resolved in
the decoder table (`off ↦ denoteD g id`) or belongs to an ancestor still
being encoded, i.e. a node whose subtree strictly contains `i`. -/
def InvTbl (g : List NodeD) (i : Nat) (et : List (Nat × Nat))
    (dt : List (Nat × Value)) : Prop :=
  ∀ id off, lookupTbl et id = some off →
    lookupTbl dt off = some (denoteD g id) ∨ Reaches g id i

/-! ## Value-model theorems (claims C2, C3, C10) -/

/-- C3: for every Atom, `first` and `rest` fail with a TypeMismatch error;
for every Pair, `as_atom` fails with a TypeMismatch error while `first`
and `rest` return the two components without error. -/
theorem c3_first_rest_as_atom_type_mismatch :
    (∀ bs : List Nat,
      (∃ e, first (SExp.atom bs) = .error e ∧ TypeMismatch e) ∧
      (∃ e, rest (SExp.atom bs) = .error e ∧ TypeMismatch e)) ∧
    (∀ p q : SExp,
      (∃ e, as_atom (SExp.pair p q) = .error e ∧ TypeMismatch e) ∧
      first (SExp.pair p q) = .ok p ∧ rest (SExp.pair p q) = .ok q) := by
  refine ⟨fun bs => ⟨⟨_, rfl, Or.inl rfl⟩, ⟨_, rfl, Or.inr (Or.inl rfl)⟩⟩,
    fun p q => ⟨⟨_, rfl, Or.inr (Or.inr rfl)⟩, rfl, rfl⟩⟩

/-- C10: the distinguished null value (the `subclass_sexp`-default
singleton, internally `None`, returned by `null()` and by `to(None)`)
satisfies `listp` but fails `first`, `rest` and `as_atom`, and is not
(Python-)equal to the empty-bytes Atom: at the inspection interface it is
neither a usable Pair nor a usable Atom. -/
theorem c10_null_default_behavior :
    listp null_default = true ∧
    first null_default = .error (.evalError "first of non-cons") ∧
    rest null_default = .error (.evalError "rest of non-cons") ∧
    as_atom null_default = .error .assertionError ∧
    pyEq null_default (SExp.atom []) = false :=
  ⟨rfl, rfl, rfl, rfl, rfl⟩

/-- C2 fails as stated: the Atom with empty byte content is equal to
itself under the model's deep structural equality, yet `nullp` on it
returns `false` (the default null singleton is `None`, not the empty
byte string). -/
theorem c2_counterexample :
    ¬ (nullp (SExp.atom []) = true ↔
        pyEq (SExp.atom []) (SExp.atom []) = true) := by
  decide

/-- C2 amended: `nullp v` is true iff `v` is the distinguished null
singleton (internal `None`), which is distinct from the Atom with empty
byte content. -/
theorem c2_nullp_iff_null_default :
    ∀ v : SExp, (nullp v = true ↔ v = null_default) ∧ null_default ≠ SExp.atom [] := by
  intro v
  refine ⟨?_, by intro h; cases h⟩
  cases v <;> simp [nullp, null_default, pyEq]

/-! ## Atom-codec theorems -/

/-- C9: encoding the empty Atom yields exactly the single byte `0x80`,
and encoding a single-byte Atom whose byte value is below `0x80` yields
exactly that byte. -/
theorem c9_small_atom_encodings :
    sexp_to_byte_iterator (Value.atom []) = .ok [0x80] ∧
    (∀ b : Nat, b < 0x80 → sexp_to_byte_iterator (Value.atom [b]) = .ok [b]) := by
  refine ⟨rfl, fun b hb => ?_⟩
  simp [sexp_to_byte_iterator, atom_to_byte_iterator, hb]

/-- Witness for C9 at the concrete byte `0x7F`. -/
theorem c9_small_atom_encodings_witness :
    0x7F < 0x80 ∧ sexp_to_byte_iterator (Value.atom [0x7F]) = .ok [0x7F] :=
  ⟨by decide, c9_small_atom_encodings.2 0x7F (by decide)⟩

/-! ## Atom round-trip -/

theorem leadingOnes_one {b0 : Nat} (h1 : 0x80 ≤ b0) (h2 : b0 < 0xC0) :
    leadingOnes b0 = 1 := by
  unfold leadingOnes
  split_ifs <;> omega

theorem leadingOnes_two {b0 : Nat} (h1 : 0xC0 ≤ b0) (h2 : b0 < 0xE0) :
    leadingOnes b0 = 2 := by
  unfold leadingOnes
  split_ifs <;> omega

theorem leadingOnes_three {b0 : Nat} (h1 : 0xE0 ≤ b0) (h2 : b0 < 0xF0) :
    leadingOnes b0 = 3 := by
  unfold leadingOnes
  split_ifs <;> omega

theorem leadingOnes_four {b0 : Nat} (h1 : 0xF0 ≤ b0) (h2 : b0 < 0xF8) :
    leadingOnes b0 = 4 := by
  unfold leadingOnes
  split_ifs <;> omega

theorem leadingOnes_five {b0 : Nat} (h1 : 0xF8 ≤ b0) (h2 : b0 < 0xFC) :
    leadingOnes b0 = 5 := by
  unfold leadingOnes
  split_ifs <;> omega

/-- Reading an atom whose stream starts with length bytes `lb` (matching
the count announced by `b0`), then the payload `bs` (matching the decoded
size), then anything, returns exactly `bs` and the untouched suffix. -/
theorem atom_from_stream_pref (b0 : Nat) (lb bs post : List Nat)
    (hb1 : ¬ b0 = 0x80) (hb2 : ¬ b0 < 0x80)
    (hlb : lb.length = leadingOnes b0 - 1)
    (hsz : lb.foldl (fun a b => a * 0x100 + b) (b0 % 2 ^ (8 - leadingOnes b0)) =
      bs.length)
    (hmax : bs.length < MAX_ATOM_SIZE) :
    atom_from_stream ((lb ++ bs) ++ post) b0 = .ok (bs, post) := by
  simp only [atom_from_stream]
  rw [if_neg hb1, if_neg hb2, List.append_assoc, ← hlb]
  simp only [List.take_left, List.drop_left]
  rw [hsz]
  rw [if_neg (by simp only [List.length_append]; omega)]
  rw [if_neg (by omega)]
  rw [if_neg (by simp only [List.length_append]; omega)]
  simp only [List.take_left, List.drop_left]

/-- Decoding inverts the atom encoder: a successful encoding starts with a
byte below `0xFE` (so the tree decoder will not mistake it for a pair or
back-reference marker) and, fed back to the atom decoder followed by any
suffix, returns exactly the original payload and the untouched suffix. -/
theorem atom_round_trip (bs ab : List Nat)
    (h : atom_to_byte_iterator bs = .ok ab) :
    ∃ b0 abr, ab = b0 :: abr ∧ b0 < 0xFE ∧
      ∀ post, atom_from_stream (abr ++ post) b0 = .ok (bs, post) := by
  simp only [atom_to_byte_iterator] at h
  split_ifs at h with h0 h1 h2 h3 h4 h5 h6
  · -- empty atom
    injection h with h; subst h
    have hbs : bs = [] := List.length_eq_zero.mp h0
    subst hbs
    exact ⟨0x80, [], rfl, by omega, fun post => by
      simp [atom_from_stream]⟩
  · -- single byte below 0x80
    obtain ⟨hl, hh⟩ := h1
    obtain ⟨x, rfl⟩ := List.length_eq_one.mp hl
    injection h with h; subst h
    simp only [List.headD_cons] at hh
    exact ⟨x, [], rfl, by omega, fun post => by
      simp [atom_from_stream, show ¬ x = 0x80 by omega, hh]⟩
  · -- one-byte length prefix
    injection h with h; subst h
    have hpos : 1 ≤ bs.length := Nat.pos_of_ne_zero h0
    refine ⟨0x80 + bs.length, bs, rfl, by omega, fun post => ?_⟩
    exact atom_from_stream_pref (0x80 + bs.length) [] bs post (by omega) (by omega)
      (by rw [leadingOnes_one (by omega) (by omega)]; rfl)
      (by rw [leadingOnes_one (by omega) (by omega)]
          simp only [List.foldl_nil]; norm_num; omega)
      (by simp only [MAX_ATOM_SIZE]; omega)
  · -- two-byte length prefix
    injection h with h; subst h
    have hq : bs.length / 0x100 < 0x20 := by omega
    refine ⟨0xC0 + bs.length / 0x100, bs.length % 0x100 :: bs, rfl, by omega,
      fun post => ?_⟩
    exact atom_from_stream_pref _ [bs.length % 0x100] bs post (by omega) (by omega)
      (by rw [leadingOnes_two (by omega) (by omega)]; rfl)
      (by rw [leadingOnes_two (by omega) (by omega)]
          simp only [List.foldl_cons, List.foldl_nil]; norm_num; omega)
      (by simp only [MAX_ATOM_SIZE]; omega)
  · -- three-byte length prefix
    injection h with h; subst h
    have hq : bs.length / 0x10000 < 0x10 := by omega
    refine ⟨0xE0 + bs.length / 0x10000,
      bs.length / 0x100 % 0x100 :: bs.length % 0x100 :: bs, rfl, by omega,
      fun post => ?_⟩
    exact atom_from_stream_pref _ [bs.length / 0x100 % 0x100, bs.length % 0x100]
      bs post (by omega) (by omega)
      (by rw [leadingOnes_three (by omega) (by omega)]; rfl)
      (by rw [leadingOnes_three (by omega) (by omega)]
          simp only [List.foldl_cons, List.foldl_nil]; norm_num; omega)
      (by simp only [MAX_ATOM_SIZE]; omega)
  · -- four-byte length prefix
    injection h with h; subst h
    have hq : bs.length / 0x1000000 < 8 := by omega
    refine ⟨0xF0 + bs.length / 0x1000000,
      bs.length / 0x10000 % 0x100 :: bs.length / 0x100 % 0x100 ::
        bs.length % 0x100 :: bs, rfl, by omega, fun post => ?_⟩
    exact atom_from_stream_pref _
      [bs.length / 0x10000 % 0x100, bs.length / 0x100 % 0x100, bs.length % 0x100]
      bs post (by omega) (by omega)
      (by rw [leadingOnes_four (by omega) (by omega)]; rfl)
      (by rw [leadingOnes_four (by omega) (by omega)]
          simp only [List.foldl_cons, List.foldl_nil]; norm_num; omega)
      (by simp only [MAX_ATOM_SIZE]; omega)
  · -- five-byte length prefix
    injection h with h; subst h
    have hq : bs.length / 0x100000000 < 4 := by omega
    refine ⟨0xF8 + bs.length / 0x100000000,
      bs.length / 0x1000000 % 0x100 :: bs.length / 0x10000 % 0x100 ::
        bs.length / 0x100 % 0x100 :: bs.length % 0x100 :: bs, rfl, by omega,
      fun post => ?_⟩
    exact atom_from_stream_pref _
      [bs.length / 0x1000000 % 0x100, bs.length / 0x10000 % 0x100,
        bs.length / 0x100 % 0x100, bs.length % 0x100]
      bs post (by omega) (by omega)
      (by rw [leadingOnes_five (by omega) (by omega)]; rfl)
      (by rw [leadingOnes_five (by omega) (by omega)]
          simp only [List.foldl_cons, List.foldl_nil]; norm_num; omega)
      (by simp only [MAX_ATOM_SIZE]; omega)

/-! ## Decoder step lemmas -/

theorem parseT_nil (allow : Bool) (pos : Nat) (tbl : List (Nat × Value)) :
    parseT allow [] pos tbl = .error .unexpectedEndOfInput := by
  unfold parseT
  simp only [parseSexp]
  rfl

theorem parseT_atom (allow : Bool) (b0 : Nat) (t : List Nat) (pos : Nat)
    (tbl : List (Nat × Value)) (bs r : List Nat)
    (h1 : ¬ b0 = 0xFF) (h2 : ¬ b0 = 0xFE)
    (hat : atom_from_stream t b0 = .ok (bs, r)) :
    parseT allow (b0 :: t) pos tbl =
      .ok (.atom bs, r, pos + 1 + (t.length - r.length),
        if allow then (pos, Value.atom bs) :: tbl else tbl) := by
  unfold parseT
  simp only [parseSexp]
  rw [if_neg h1, if_neg h2]
  split
  · next heq => rw [hat] at heq; cases heq
  · next abs ar heq =>
    rw [hat] at heq
    injection heq with heq
    injection heq with ha hr
    subst ha; subst hr
    simp [Except.map]

theorem parseT_atom_err (allow : Bool) (b0 : Nat) (t : List Nat) (pos : Nat)
    (tbl : List (Nat × Value)) (e : CodecError)
    (h1 : ¬ b0 = 0xFF) (h2 : ¬ b0 = 0xFE)
    (hat : atom_from_stream t b0 = .error e) :
    parseT allow (b0 :: t) pos tbl = .error e := by
  unfold parseT
  simp only [parseSexp]
  rw [if_neg h1, if_neg h2]
  split
  · next e' heq => rw [hat] at heq; injection heq with heq; subst heq; rfl
  · next abs ar heq => rw [hat] at heq; cases heq

theorem parseT_pair (allow : Bool) (t rest1 rest2 : List Nat) (pos p1 p2 : Nat)
    (tbl tbl1 tbl2 : List (Nat × Value)) (v1 v2 : Value)
    (hp1 : parseT allow t (pos + 1) tbl = .ok (v1, rest1, p1, tbl1))
    (hp2 : parseT allow rest1 p1 tbl1 = .ok (v2, rest2, p2, tbl2)) :
    parseT allow (0xFF :: t) pos tbl =
      .ok (.pair v1 v2, rest2, p2,
        if allow then (pos, Value.pair v1 v2) :: tbl2 else tbl2) := by
  unfold parseT at *
  simp only [parseSexp]
  rw [if_pos trivial]
  split
  · next e heq => rw [heq] at hp1; simp [Except.map] at hp1
  · next r1 heq =>
    rw [heq] at hp1
    simp only [Except.map, Except.ok.injEq, Prod.mk.injEq] at hp1
    obtain ⟨ha, hb, hc, hd⟩ := hp1
    split
    · next e heq2 =>
      rw [← hb, ← hc, ← hd] at hp2; rw [heq2] at hp2; simp [Except.map] at hp2
    · next r2 heq2 =>
      rw [← hb, ← hc, ← hd] at hp2
      rw [heq2] at hp2
      simp only [Except.map, Except.ok.injEq, Prod.mk.injEq] at hp2
      obtain ⟨ha2, hb2, hc2, hd2⟩ := hp2
      simp [Except.map, ha, ha2, hb2, hc2, hd2]

theorem parseT_pair_err1 (allow : Bool) (t : List Nat) (pos : Nat)
    (tbl : List (Nat × Value)) (e : CodecError)
    (hp1 : parseT allow t (pos + 1) tbl = .error e) :
    parseT allow (0xFF :: t) pos tbl = .error e := by
  unfold parseT at *
  simp only [parseSexp]
  rw [if_pos trivial]
  split
  · next e' heq =>
    rw [heq] at hp1
    simp only [Except.map] at hp1
    injection hp1 with hp1; subst hp1; rfl
  · next r1 heq => rw [heq] at hp1; simp [Except.map] at hp1

theorem parseT_pair_err2 (allow : Bool) (t rest1 : List Nat) (pos p1 : Nat)
    (tbl tbl1 : List (Nat × Value)) (v1 : Value) (e : CodecError)
    (hp1 : parseT allow t (pos + 1) tbl = .ok (v1, rest1, p1, tbl1))
    (hp2 : parseT allow rest1 p1 tbl1 = .error e) :
    parseT allow (0xFF :: t) pos tbl = .error e := by
  unfold parseT at *
  simp only [parseSexp]
  rw [if_pos trivial]
  split
  · next e' heq => rw [heq] at hp1; simp [Except.map] at hp1
  · next r1 heq =>
    rw [heq] at hp1
    simp only [Except.map, Except.ok.injEq, Prod.mk.injEq] at hp1
    obtain ⟨ha, hb, hc, hd⟩ := hp1
    split
    · next e' heq2 =>
      rw [← hb, ← hc, ← hd] at hp2
      rw [heq2] at hp2
      simp only [Except.map] at hp2
      injection hp2 with hp2; subst hp2; rfl
    · next r2 heq2 => rw [← hb, ← hc, ← hd] at hp2; rw [heq2] at hp2; simp [Except.map] at hp2

theorem parseT_fe_disabled (t : List Nat) (pos : Nat)
    (tbl : List (Nat × Value)) :
    parseT false (0xFE :: t) pos tbl = .error .malformedInput := by
  unfold parseT
  simp only [parseSexp]
  rfl

theorem parseT_backref (t : List Nat) (pos : Nat) (tbl : List (Nat × Value))
    (dbs ar : List Nat) (v : Value)
    (hbr : backref_from_stream t = .ok (dbs, ar))
    (hlk : lookupTbl tbl (pos - bytesToInt dbs) = some v) :
    parseT true (0xFE :: t) pos tbl =
      .ok (v, ar, pos + 1 + (t.length - ar.length), (pos, v) :: tbl) := by
  unfold parseT
  simp only [parseSexp]
  rw [if_neg (by omega), if_pos trivial, if_pos trivial]
  split
  · next heq => rw [hbr] at heq; cases heq
  · next dbs' ar' heq =>
    rw [hbr] at heq
    injection heq with heq
    injection heq with ha hr
    subst ha; subst hr
    rw [hlk]
    simp [Except.map]

theorem sexp_from_stream_of_parseT (blob : List Nat) (allow : Bool)
    (v : Value) (r : List Nat) (p : Nat) (tbl : List (Nat × Value))
    (h : parseT allow blob 0 [] = .ok (v, r, p, tbl)) :
    sexp_from_stream blob allow = .ok (v, r) := by
  unfold parseT at h
  unfold sexp_from_stream
  cases hq : parseSexp allow blob 0 [] with
  | error e => rw [hq] at h; simp [Except.map] at h
  | ok res =>
    rw [hq] at h
    simp only [Except.map, Except.ok.injEq, Prod.mk.injEq] at h
    obtain ⟨ha, hb, -, -⟩ := h
    simp [ha, hb]

theorem sexp_from_stream_of_parseT_err (blob : List Nat) (allow : Bool)
    (e : CodecError) (h : parseT allow blob 0 [] = .error e) :
    sexp_from_stream blob allow = .error e := by
  unfold parseT at h
  unfold sexp_from_stream
  cases hq : parseSexp allow blob 0 [] with
  | error e' =>
    rw [hq] at h
    simp only [Except.map] at h
    injection h with h; subst h; rfl
  | ok res => rw [hq] at h; simp [Except.map] at h

/-! ## Uncompressed round-trip -/

/-- Parsing (without backrefs) inverts the uncompressed tree encoder, for
any trailing bytes, any starting position and any table. -/
theorem sexp_round_trip (v : Value) :
    ∀ (b post : List Nat) (pos : Nat) (tbl : List (Nat × Value)),
      sexp_to_byte_iterator v = .ok b →
      parseT false (b ++ post) pos tbl = .ok (v, post, pos + b.length, tbl) := by
  induction v with
  | atom bs =>
    intro b post pos tbl h
    obtain ⟨b0, abr, rfl, hlt, hdec⟩ := atom_round_trip bs b h
    rw [List.cons_append]
    have harith : pos + (b0 :: abr).length =
        pos + 1 + ((abr ++ post).length - post.length) := by
      simp [List.length_cons, List.length_append]; omega
    rw [harith]
    exact parseT_atom false b0 (abr ++ post) pos tbl bs post
      (by omega) (by omega) (hdec post)
  | pair a b iha ihb =>
    intro bb post pos tbl h
    simp only [sexp_to_byte_iterator] at h
    cases ha : sexp_to_byte_iterator a with
    | error e => rw [ha] at h; simp at h
    | ok ba =>
      cases hb2 : sexp_to_byte_iterator b with
      | error e => rw [ha, hb2] at h; simp at h
      | ok bbb =>
        rw [ha, hb2] at h
        injection h with h; subst h
        have hl : (0xFF :: ba ++ bbb) ++ post = 0xFF :: (ba ++ (bbb ++ post)) := by
          simp
        rw [hl]
        have h1 := iha ba (bbb ++ post) (pos + 1) tbl ha
        have h2 := ihb bbb post (pos + 1 + ba.length) tbl hb2
        have h3 := parseT_pair false (ba ++ (bbb ++ post)) (bbb ++ post) post
          pos (pos + 1 + ba.length) (pos + 1 + ba.length + bbb.length)
          tbl tbl tbl a b h1 h2
        have harith : pos + (0xFF :: ba ++ bbb).length =
            pos + 1 + ba.length + bbb.length := by
          simp [List.length_cons, List.length_append]; omega
        rw [harith]
        exact h3

/-! ## Fail-fast decode errors (claim C7) -/

theorem foldl_radix_le (l : List Nat) (a : Nat) :
    a ≤ l.foldl (fun x b => x * 0x100 + b) a := by
  induction l generalizing a with
  | nil => exact le_refl _
  | cons b t ih =>
    simp only [List.foldl_cons]
    exact le_trans (by omega) (ih (a * 0x100 + b))

/-- A one-byte prefix claiming 63 payload bytes fails with
UnexpectedEndOfInput when the stream holds fewer. -/
theorem atom_from_stream_truncated (t : List Nat) (ht : t.length < 63) :
    atom_from_stream t 0xBF = .error .unexpectedEndOfInput := by
  simp only [atom_from_stream]
  rw [if_neg (by omega), if_neg (by omega)]
  rw [leadingOnes_one (by omega) (by omega)]
  simp only [Nat.sub_self, List.take_zero, List.foldl_nil, List.drop_zero,
    List.length_nil]
  norm_num
  rw [if_neg (by simp [MAX_ATOM_SIZE])]
  rw [if_pos (by omega)]

/-- The back-reference payload position of `0xFE` followed by six `0xFF`
bytes reads an atom whose claimed length is astronomically large: the atom
decoder rejects it with SizeLimitExceeded before reading any payload. -/
theorem atom_from_stream_huge (pads : List Nat) (hp : 2 ≤ pads.length) :
    atom_from_stream (List.replicate 5 0xFF ++ pads) 0xFF =
      .error .sizeLimitExceeded := by
  simp only [atom_from_stream]
  rw [if_neg (by omega), if_neg (by omega)]
  have hlead : leadingOnes 0xFF = 8 := by
    unfold leadingOnes; rw [if_pos (by omega)]
  rw [hlead]
  rw [if_neg (by simp only [List.length_append, List.length_replicate]; omega)]
  rw [if_pos ?hsz]
  case hsz =>
    obtain ⟨p1, pads1, rfl⟩ : ∃ p1 pads1, pads = p1 :: pads1 := by
      cases pads with
      | nil => simp at hp
      | cons p1 pads1 => exact ⟨p1, pads1, rfl⟩
    obtain ⟨p2, pads2, rfl⟩ : ∃ p2 pads2, pads1 = p2 :: pads2 := by
      cases pads1 with
      | nil => simp at hp
      | cons p2 pads2 => exact ⟨p2, pads2, rfl⟩
    have h7 : (8 : Nat) - 1 = (List.replicate 5 0xFF ++ [p1, p2]).length := by
      simp
    have hsplit : List.replicate 5 0xFF ++ (p1 :: p2 :: pads2) =
        (List.replicate 5 0xFF ++ [p1, p2]) ++ pads2 := by simp
    rw [h7, hsplit, List.take_left]
    rw [List.foldl_append]
    have hbase : (List.replicate 5 0xFF).foldl (fun x b => x * 0x100 + b)
        (0xFF % 2 ^ (8 - 8)) = 0xFFFFFFFFFF := by decide
    rw [hbase]
    have hge := foldl_radix_le [p1, p2] 0xFFFFFFFFFF
    simp only [MAX_ATOM_SIZE]
    omega

/-! ## Scanner step lemmas -/

theorem scanT_nil (allow : Bool) :
    scanT allow [] = .error .unexpectedEndOfInput := by
  unfold scanT
  simp only [scanSexp]
  rfl

theorem scanT_atom (allow : Bool) (b0 : Nat) (t : List Nat) (bs r : List Nat)
    (h1 : ¬ b0 = 0xFF) (h2 : ¬ b0 = 0xFE)
    (hat : atom_from_stream t b0 = .ok (bs, r)) :
    scanT allow (b0 :: t) = .ok r := by
  unfold scanT
  simp only [scanSexp]
  rw [if_neg h1, if_neg h2]
  split
  · next heq => rw [hat] at heq; cases heq
  · next abs ar heq =>
    rw [hat] at heq
    injection heq with heq
    injection heq with ha hr
    subst hr
    simp [Except.map]

theorem scanT_atom_err (allow : Bool) (b0 : Nat) (t : List Nat)
    (e : CodecError) (h1 : ¬ b0 = 0xFF) (h2 : ¬ b0 = 0xFE)
    (hat : atom_from_stream t b0 = .error e) :
    scanT allow (b0 :: t) = .error e := by
  unfold scanT
  simp only [scanSexp]
  rw [if_neg h1, if_neg h2]
  split
  · next e' heq => rw [hat] at heq; injection heq with heq; subst heq; rfl
  · next abs ar heq => rw [hat] at heq; cases heq

theorem scanT_pair (allow : Bool) (t rest1 rest2 : List Nat)
    (hp1 : scanT allow t = .ok rest1)
    (hp2 : scanT allow rest1 = .ok rest2) :
    scanT allow (0xFF :: t) = .ok rest2 := by
  unfold scanT at *
  simp only [scanSexp]
  rw [if_pos trivial]
  split
  · next e heq => rw [heq] at hp1; simp [Except.map] at hp1
  · next r1 heq =>
    rw [heq] at hp1
    simp only [Except.map, Except.ok.injEq] at hp1
    split
    · next e heq2 =>
      rw [← hp1] at hp2
      rw [heq2] at hp2; simp [Except.map] at hp2
    · next r2 heq2 =>
      rw [← hp1] at hp2
      rw [heq2] at hp2
      simp only [Except.map, Except.ok.injEq] at hp2
      simp [Except.map, hp2]

theorem scanT_fe_disabled (t : List Nat) :
    scanT false (0xFE :: t) = .error .malformedInput := by
  unfold scanT
  simp only [scanSexp]
  rfl

theorem scanT_backref (t : List Nat) (dbs ar : List Nat)
    (hbr : backref_from_stream t = .ok (dbs, ar)) :
    scanT true (0xFE :: t) = .ok ar := by
  unfold scanT
  simp only [scanSexp]
  rw [if_neg (by omega), if_pos trivial, if_pos trivial]
  split
  · next heq => rw [hbr] at heq; cases heq
  · next dbs' ar' heq =>
    rw [hbr] at heq
    injection heq with heq
    injection heq with ha hr
    subst hr
    simp [Except.map]

theorem scanT_backref_err (t : List Nat) (e : CodecError)
    (hbr : backref_from_stream t = .error e) :
    scanT true (0xFE :: t) = .error e := by
  unfold scanT
  simp only [scanSexp]
  rw [if_neg (by omega), if_pos trivial, if_pos trivial]
  split
  · next e' heq => rw [hbr] at heq; injection heq with heq; subst heq; rfl
  · next dbs' ar' heq => rw [hbr] at heq; cases heq

theorem sexp_buffer_from_stream_of_scanT (blob : List Nat) (allow : Bool)
    (r : List Nat) (h : scanT allow blob = .ok r) :
    sexp_buffer_from_stream blob allow =
      .ok (blob.take (blob.length - r.length), r) := by
  unfold scanT at h
  unfold sexp_buffer_from_stream
  cases hq : scanSexp allow blob with
  | error e => rw [hq] at h; simp [Except.map] at h
  | ok res =>
    rw [hq] at h
    simp only [Except.map, Except.ok.injEq] at h
    simp [h]

theorem sexp_buffer_from_stream_of_scanT_err (blob : List Nat) (allow : Bool)
    (e : CodecError) (h : scanT allow blob = .error e) :
    sexp_buffer_from_stream blob allow = .error e := by
  unfold scanT at h
  unfold sexp_buffer_from_stream
  cases hq : scanSexp allow blob with
  | error e' =>
    rw [hq] at h
    simp only [Except.map] at h
    injection h with h; subst h; rfl
  | ok res => rw [hq] at h; simp [Except.map] at h

theorem parseT_backref_err (t : List Nat) (pos : Nat)
    (tbl : List (Nat × Value)) (e : CodecError)
    (hbr : backref_from_stream t = .error e) :
    parseT true (0xFE :: t) pos tbl = .error e := by
  unfold parseT
  simp only [parseSexp]
  rw [if_neg (by omega), if_pos trivial, if_pos trivial]
  split
  · next e' heq => rw [hbr] at heq; injection heq with heq; subst heq; rfl
  · next dbs' ar' heq => rw [hbr] at heq; cases heq

theorem backref_from_stream_huge (pads : List Nat) (hp : 2 ≤ pads.length) :
    backref_from_stream (List.replicate 6 0xFF ++ pads) =
      .error .sizeLimitExceeded := by
  have hrep : List.replicate 6 0xFF ++ pads =
      0xFF :: (List.replicate 5 0xFF ++ pads) := by
    simp [List.replicate_succ]
  rw [hrep]
  unfold backref_from_stream
  exact atom_from_stream_huge pads hp

/-- C7, amended: truncation safety for both the Tree Decoder and the
Buffer Scanner.  An empty stream and a truncated 63-byte-claiming prefix
fail with UnexpectedEndOfInput in every mode; the stream `0xFE` followed
by six `0xFF` bytes (and any padding) fails with SizeLimitExceeded — the
claimed length is never read from the stream — when backref support is
enabled, and fails fast with MalformedInput (the `0xFE` marker itself is
rejected) when backref support is disabled. -/
theorem c7_truncation_safety :
    (∀ allow : Bool, sexp_from_stream [] allow = .error .unexpectedEndOfInput) ∧
    (∀ allow : Bool, sexp_buffer_from_stream [] allow =
      .error .unexpectedEndOfInput) ∧
    (∀ (allow : Bool) (t : List Nat), t.length < 63 →
      sexp_from_stream (0xBF :: t) allow = .error .unexpectedEndOfInput) ∧
    (∀ (allow : Bool) (t : List Nat), t.length < 63 →
      sexp_buffer_from_stream (0xBF :: t) allow =
        .error .unexpectedEndOfInput) ∧
    (∀ pads : List Nat, 2 ≤ pads.length →
      sexp_from_stream (0xFE :: (List.replicate 6 0xFF ++ pads)) true =
        .error .sizeLimitExceeded) ∧
    (∀ pads : List Nat, 2 ≤ pads.length →
      sexp_buffer_from_stream (0xFE :: (List.replicate 6 0xFF ++ pads)) true =
        .error .sizeLimitExceeded) ∧
    (∀ pads : List Nat,
      sexp_from_stream (0xFE :: pads) false = .error .malformedInput) ∧
    (∀ pads : List Nat,
      sexp_buffer_from_stream (0xFE :: pads) false = .error .malformedInput) := by
  refine ⟨?_, ?_, ?_, ?_, ?_, ?_, ?_, ?_⟩
  · intro allow
    exact sexp_from_stream_of_parseT_err [] allow _ (parseT_nil allow 0 [])
  · intro allow
    exact sexp_buffer_from_stream_of_scanT_err [] allow _ (scanT_nil allow)
  · intro allow t ht
    exact sexp_from_stream_of_parseT_err _ allow _
      (parseT_atom_err allow 0xBF t 0 [] _ (by omega) (by omega)
        (atom_from_stream_truncated t ht))
  · intro allow t ht
    exact sexp_buffer_from_stream_of_scanT_err _ allow _
      (scanT_atom_err allow 0xBF t _ (by omega) (by omega)
        (atom_from_stream_truncated t ht))
  · intro pads hp
    exact sexp_from_stream_of_parseT_err _ true _
      (parseT_backref_err _ 0 [] _ (backref_from_stream_huge pads hp))
  · intro pads hp
    exact sexp_buffer_from_stream_of_scanT_err _ true _
      (scanT_backref_err _ _ (backref_from_stream_huge pads hp))
  · intro pads
    exact sexp_from_stream_of_parseT_err _ false _ (parseT_fe_disabled pads 0 [])
  · intro pads
    exact sexp_buffer_from_stream_of_scanT_err _ false _
      (scanT_fe_disabled pads)

/-- C7 fails as stated: in the default (backref-disabled) mode the input
`0xFE` followed by six `0xFF` bytes and padding fails with MalformedInput,
not SizeLimitExceeded. -/
theorem c7_counterexample :
    sexp_from_stream (0xFE :: (List.replicate 6 0xFF ++ [0x20, 0x20])) false =
      .error .malformedInput ∧
    CodecError.malformedInput ≠ CodecError.sizeLimitExceeded := by
  constructor
  · exact sexp_from_stream_of_parseT_err _ false _ (parseT_fe_disabled _ 0 [])
  · intro h; cases h

/-- Witness for C7 at concrete inputs. -/
theorem c7_truncation_safety_witness :
    sexp_from_stream [] false = .error .unexpectedEndOfInput ∧
    sexp_buffer_from_stream [] false = .error .unexpectedEndOfInput ∧
    ((0x20 : Nat) :: [0x20, 0x20]).length < 63 ∧
    sexp_from_stream [0xBF, 0x20, 0x20, 0x20] false =
      .error .unexpectedEndOfInput ∧
    sexp_buffer_from_stream [0xBF, 0x20, 0x20, 0x20] false =
      .error .unexpectedEndOfInput ∧
    2 ≤ ([0x20, 0x20] : List Nat).length ∧
    sexp_from_stream (0xFE :: (List.replicate 6 0xFF ++ [0x20, 0x20])) true =
      .error .sizeLimitExceeded ∧
    sexp_buffer_from_stream (0xFE :: (List.replicate 6 0xFF ++ [0x20, 0x20]))
      true = .error .sizeLimitExceeded ∧
    sexp_from_stream (0xFE :: [0x20]) false = .error .malformedInput ∧
    sexp_buffer_from_stream (0xFE :: [0x20]) false = .error .malformedInput :=
  ⟨c7_truncation_safety.1 false,
   c7_truncation_safety.2.1 false,
   by decide,
   c7_truncation_safety.2.2.1 false [0x20, 0x20, 0x20] (by decide),
   c7_truncation_safety.2.2.2.1 false [0x20, 0x20, 0x20] (by decide),
   by decide,
   c7_truncation_safety.2.2.2.2.1 [0x20, 0x20] (by decide),
   c7_truncation_safety.2.2.2.2.2.1 [0x20, 0x20] (by decide),
   c7_truncation_safety.2.2.2.2.2.2.1 [0x20],
   c7_truncation_safety.2.2.2.2.2.2.2 [0x20]⟩

/-! ## Scanner/decoder agreement (claim C8) -/

theorem atom_from_stream_suffix (s : List Nat) (b0 : Nat) (bs r : List Nat)
    (h : atom_from_stream s b0 = .ok (bs, r)) : r <:+ s := by
  simp only [atom_from_stream] at h
  split_ifs at h <;> simp at h <;> obtain ⟨-, rfl⟩ := h <;>
    first
      | exact List.suffix_refl _
      | exact List.drop_suffix _ _

theorem backref_from_stream_suffix (t : List Nat) (dbs r : List Nat)
    (h : backref_from_stream t = .ok (dbs, r)) : r <:+ t := by
  cases t with
  | nil => simp [backref_from_stream] at h
  | cons b1 t1 =>
    simp only [backref_from_stream] at h
    exact List.IsSuffix.trans (atom_from_stream_suffix t1 b1 dbs r h)
      (List.suffix_cons b1 t1)

/-- The Buffer Scanner stops at exactly the stream suffix the Tree
Decoder leaves unconsumed, and that suffix really is a suffix of the
input. -/
theorem scan_matches_parse (n : Nat) :
    ∀ (s : List Nat), s.length ≤ n →
    ∀ (allow : Bool) (pos : Nat) (tbl : List (Nat × Value)) (v : Value)
      (r : List Nat) (p : Nat) (tbl' : List (Nat × Value)),
      parseT allow s pos tbl = .ok (v, r, p, tbl') →
      scanT allow s = .ok r ∧ r <:+ s := by
  induction n with
  | zero =>
    intro s hs allow pos tbl v r p tbl' hp
    have : s = [] := List.length_eq_zero.mp (by omega)
    subst this
    rw [parseT_nil] at hp
    cases hp
  | succ n ih =>
    intro s hs allow pos tbl v r p tbl' hp
    cases s with
    | nil => rw [parseT_nil] at hp; cases hp
    | cons b0 t =>
      by_cases hff : b0 = 0xFF
      · subst hff
        unfold parseT at hp
        simp only [parseSexp] at hp
        rw [if_pos trivial] at hp
        split at hp
        · simp [Except.map] at hp
        · next r1 heq1 =>
          split at hp
          · simp [Except.map] at hp
          · next r2 heq2 =>
            simp only [Except.map, Except.ok.injEq, Prod.mk.injEq] at hp
            obtain ⟨-, hr, -, -⟩ := hp
            have hp1 : parseT allow t (pos + 1) tbl =
                .ok (r1.val, r1.rest, r1.pos, r1.tbl) := by
              unfold parseT; rw [heq1]; rfl
            have hp2 : parseT allow r1.rest r1.pos r1.tbl =
                .ok (r2.val, r2.rest, r2.pos, r2.tbl) := by
              unfold parseT; rw [heq2]; rfl
            have hlen1 : t.length ≤ n := by
              simp only [List.length_cons] at hs; omega
            have hlen2 : r1.rest.length ≤ n := by
              have := r1.hlt; omega
            obtain ⟨hs1, hx1⟩ := ih t hlen1 allow (pos + 1) tbl _ _ _ _ hp1
            obtain ⟨hs2, hx2⟩ := ih r1.rest hlen2 allow r1.pos r1.tbl _ _ _ _ hp2
            subst hr
            refine ⟨scanT_pair allow t r1.rest r2.rest hs1 hs2, ?_⟩
            exact List.IsSuffix.trans (List.IsSuffix.trans hx2 hx1)
              (List.suffix_cons 0xFF t)
      · by_cases hfe : b0 = 0xFE
        · subst hfe
          cases allow with
          | false =>
            rw [parseT_fe_disabled] at hp
            cases hp
          | true =>
            unfold parseT at hp
            simp only [parseSexp] at hp
            rw [if_neg (by omega), if_pos trivial, if_pos trivial] at hp
            split at hp
            · simp [Except.map] at hp
            · next dbs ar heq =>
              split at hp
              · simp [Except.map] at hp
              · next v0 hlk =>
                simp only [Except.map, Except.ok.injEq, Prod.mk.injEq] at hp
                obtain ⟨-, hr, -, -⟩ := hp
                subst hr
                refine ⟨scanT_backref t dbs ar heq, ?_⟩
                exact List.IsSuffix.trans (backref_from_stream_suffix t dbs ar heq)
                  (List.suffix_cons 0xFE t)
        · unfold parseT at hp
          simp only [parseSexp] at hp
          rw [if_neg hff, if_neg hfe] at hp
          split at hp
          · simp [Except.map] at hp
          · next abs ar heq =>
            simp only [Except.map, Except.ok.injEq, Prod.mk.injEq] at hp
            obtain ⟨-, hr, -, -⟩ := hp
            subst hr
            refine ⟨scanT_atom allow b0 t abs ar hff hfe heq, ?_⟩
            exact List.IsSuffix.trans (atom_from_stream_suffix t b0 abs ar heq)
              (List.suffix_cons b0 t)

/-- C8: whenever the Tree Decoder decodes one Value from a stream (in
either mode), the Buffer Scanner applied to the same stream returns
exactly the prefix the decoder consumed (with the same unconsumed
suffix), and that span followed by the suffix reassembles the stream. -/
theorem c8_scanner_decoder_agreement (blob : List Nat) (allow : Bool)
    (v : Value) (rest : List Nat)
    (h : sexp_from_stream blob allow = .ok (v, rest)) :
    sexp_buffer_from_stream blob allow =
      .ok (blob.take (blob.length - rest.length), rest) ∧
    blob.take (blob.length - rest.length) ++ rest = blob := by
  unfold sexp_from_stream at h
  cases hq : parseSexp allow blob 0 [] with
  | error e => rw [hq] at h; cases h
  | ok res =>
    rw [hq] at h
    injection h with h
    injection h with h1 h2
    have hp : parseT allow blob 0 [] = .ok (res.val, res.rest, res.pos, res.tbl) := by
      unfold parseT; rw [hq]; rfl
    obtain ⟨hscan, hsuf⟩ :=
      scan_matches_parse blob.length blob (le_refl _) allow 0 [] _ _ _ _ hp
    subst h2
    constructor
    · exact sexp_buffer_from_stream_of_scanT blob allow _ hscan
    · obtain ⟨pre, hpre⟩ := hsuf
      have key : ∀ (bl pr rr : List Nat), pr ++ rr = bl →
          bl.take (bl.length - rr.length) ++ rr = bl := by
        intro bl pr rr hx
        have hlen2 : bl.length = pr.length + rr.length := by rw [← hx]; simp
        rw [show bl.length - rr.length = pr.length by omega]
        rw [← hx, List.take_left]
      exact key blob pre res.rest hpre

/-- Witness for C8 on a concrete pair encoding followed by trailing
bytes. -/
theorem c8_scanner_decoder_agreement_witness :
    sexp_from_stream [0xFF, 0x01, 0x80, 9, 9] false =
      .ok (Value.pair (.atom [1]) (.atom []), [9, 9]) ∧
    sexp_buffer_from_stream [0xFF, 0x01, 0x80, 9, 9] false =
      .ok ([0xFF, 0x01, 0x80], [9, 9]) := by
  have hp := sexp_round_trip (Value.pair (.atom [1]) (.atom []))
    [0xFF, 0x01, 0x80] [9, 9] 0 [] rfl
  have h := sexp_from_stream_of_parseT _ false _ _ _ _ hp
  refine ⟨h, ?_⟩
  exact (c8_scanner_decoder_agreement _ false _ _ h).1

/-! ## Object-graph lemmas -/

theorem getD_out_of_range {g : List NodeD} {i : Nat} (h : g.length ≤ i) :
    g.getD i (.atom []) = .atom [] := by
  simp [List.getD, List.getElem?_eq_none h]

theorem wf_pair_lt {g : List NodeD} (hwf : WfDag g) {i l r : Nat}
    (h : g.getD i (.atom []) = .pair l r) : l < i ∧ r < i := by
  by_cases hi : i < g.length
  · have hw := hwf i hi
    rw [h] at hw
    exact hw
  · rw [getD_out_of_range (by omega)] at h
    cases h

theorem pair_in_range {g : List NodeD} {i l r : Nat}
    (h : g.getD i (.atom []) = .pair l r) : i < g.length := by
  by_cases hi : i < g.length
  · exact hi
  · rw [getD_out_of_range (by omega)] at h
    cases h

theorem denoteAt_congr (g : List NodeD) (hwf : WfDag g) :
    ∀ f1 f2 i, i < f1 → i < f2 → denoteAt g f1 i = denoteAt g f2 i := by
  intro f1
  induction f1 with
  | zero => intro f2 i h1; omega
  | succ a ih =>
    intro f2 i h1 h2
    cases f2 with
    | zero => omega
    | succ b =>
      cases hnode : g.getD i (.atom []) with
      | atom bs => simp only [denoteAt, hnode]
      | pair l r =>
        obtain ⟨hl, hr⟩ := wf_pair_lt hwf hnode
        simp only [denoteAt, hnode]
        rw [ih b l (by omega) (by omega), ih b r (by omega) (by omega)]

theorem denoteD_atom (g : List NodeD) {i : Nat} {bs : List Nat}
    (h : g.getD i (.atom []) = .atom bs) : denoteD g i = .atom bs := by
  unfold denoteD
  simp only [denoteAt, h]

theorem denoteD_pair (g : List NodeD) (hwf : WfDag g) {i l r : Nat}
    (h : g.getD i (.atom []) = .pair l r) :
    denoteD g i = .pair (denoteD g l) (denoteD g r) := by
  obtain ⟨hl, hr⟩ := wf_pair_lt hwf h
  have hstep : denoteD g i = .pair (denoteAt g i l) (denoteAt g i r) := by
    unfold denoteD
    simp only [denoteAt, h]
  rw [hstep]
  rw [denoteAt_congr g hwf i (l + 1) l (by omega) (by omega)]
  rw [denoteAt_congr g hwf i (r + 1) r (by omega) (by omega)]
  rfl

theorem serPrefix_length (g : List NodeD) (n : Nat) :
    (serPrefix g n).length = n := by
  induction n with
  | zero => rfl
  | succ n ih =>
    simp only [serPrefix, List.length_append, List.length_cons,
      List.length_nil, ih]

theorem serPrefix_stable (g : List NodeD) :
    ∀ n m j, j < m → m ≤ n →
      (serPrefix g n).getD j 0 = (serPrefix g m).getD j 0 := by
  intro n
  induction n with
  | zero => intro m j hj hm; omega
  | succ n ih =>
    intro m j hj hm
    rcases Nat.eq_or_lt_of_le hm with he | hl
    · rw [he]
    · simp only [serPrefix]
      rw [List.getD_append _ _ _ _ (by rw [serPrefix_length]; omega)]
      exact ih m j hj (by omega)

theorem serLens_atom (g : List NodeD) {i : Nat} {bs : List Nat}
    (hi : i < g.length) (h : g.getD i (.atom []) = .atom bs) :
    (serLens g).getD i 0 = atomEncLen bs := by
  unfold serLens
  rw [serPrefix_stable g g.length (i + 1) i (by omega) (by omega)]
  simp only [serPrefix]
  rw [List.getD_append_right _ _ _ _ (by simp [serPrefix_length])]
  rw [serPrefix_length, Nat.sub_self]
  simp only [h]
  rfl

theorem serLens_pair (g : List NodeD) (hwf : WfDag g) {i l r : Nat}
    (hi : i < g.length) (h : g.getD i (.atom []) = .pair l r) :
    (serLens g).getD i 0 =
      1 + (serLens g).getD l 0 + (serLens g).getD r 0 := by
  obtain ⟨hl, hr⟩ := wf_pair_lt hwf h
  unfold serLens
  rw [serPrefix_stable g g.length (i + 1) i (by omega) (by omega)]
  simp only [serPrefix]
  rw [List.getD_append_right _ _ _ _ (by simp [serPrefix_length])]
  rw [serPrefix_length, Nat.sub_self]
  simp only [h]
  have hgl : (serPrefix g i).getD l 1 = (serPrefix g i).getD l 0 := by
    rw [List.getD_eq_getElem _ _ (by rw [serPrefix_length]; omega)]
    exact (List.getD_eq_getElem _ _ (by rw [serPrefix_length]; omega)).symm
  have hgr : (serPrefix g i).getD r 1 = (serPrefix g i).getD r 0 := by
    rw [List.getD_eq_getElem _ _ (by rw [serPrefix_length]; omega)]
    exact (List.getD_eq_getElem _ _ (by rw [serPrefix_length]; omega)).symm
  rw [hgl, hgr]
  rw [serPrefix_stable g g.length i l (by omega) (by omega),
    serPrefix_stable g g.length i r (by omega) (by omega)]
  rfl

theorem serLens_eq_encoded_length (g : List NodeD) (hwf : WfDag g) :
    ∀ i, i < g.length → ∀ ub, sexp_to_byte_iterator (denoteD g i) = .ok ub →
      (serLens g).getD i 0 = ub.length := by
  intro i
  induction i using Nat.strong_induction_on with
  | _ i ih =>
    intro hi ub hub
    cases hnode : g.getD i (.atom []) with
    | atom bs =>
      rw [denoteD_atom g hnode] at hub
      simp only [sexp_to_byte_iterator] at hub
      rw [serLens_atom g hi hnode]
      unfold atomEncLen
      rw [hub]
    | pair l r =>
      obtain ⟨hl, hr⟩ := wf_pair_lt hwf hnode
      rw [denoteD_pair g hwf hnode] at hub
      simp only [sexp_to_byte_iterator] at hub
      cases h1 : sexp_to_byte_iterator (denoteD g l) with
      | error e => rw [h1] at hub; simp at hub
      | ok u1 =>
        cases h2 : sexp_to_byte_iterator (denoteD g r) with
        | error e => rw [h1, h2] at hub; simp at hub
        | ok u2 =>
          rw [h1, h2] at hub
          injection hub with hub
          subst hub
          rw [serLens_pair g hwf hi hnode]
          rw [ih l (by omega) (by omega) u1 h1, ih r (by omega) (by omega) u2 h2]
          simp [List.length_append]
          omega

/-! ## Back-reference distance payload -/

theorem bytesToInt_append_one (l : List Nat) (x : Nat) :
    bytesToInt (l ++ [x]) = bytesToInt l * 0x100 + x := by
  simp [bytesToInt, List.foldl_append]

theorem bytesToInt_intToBytesF :
    ∀ fuel n, n ≤ fuel → bytesToInt (intToBytesF fuel n) = n := by
  intro fuel
  induction fuel with
  | zero =>
    intro n h
    have : n = 0 := by omega
    subst this
    rfl
  | succ fuel ih =>
    intro n h
    simp only [intToBytesF]
    by_cases h0 : n = 0
    · simp [h0, bytesToInt]
    · rw [if_neg h0]
      rw [bytesToInt_append_one]
      have hdiv : n / 0x100 ≤ fuel := by
        have := Nat.div_lt_self (Nat.pos_of_ne_zero h0) (show 1 < 0x100 by omega)
        omega
      rw [ih (n / 0x100) hdiv]
      omega

theorem bytesToInt_intToBytes (n : Nat) : bytesToInt (intToBytes n) = n :=
  bytesToInt_intToBytesF n n (le_refl n)

/-! ## Table lookup lemmas -/

theorem lookupTbl_cons_eq {α : Type} (k : Nat) (v : α) (t : List (Nat × α)) :
    lookupTbl ((k, v) :: t) k = some v := by
  simp [lookupTbl]

theorem lookupTbl_cons_ne {α : Type} {k i : Nat} (v : α) (t : List (Nat × α))
    (h : ¬ k = i) : lookupTbl ((k, v) :: t) i = lookupTbl t i := by
  simp [lookupTbl, h]

/-! ## Compression never expands (claim C4) -/

/-- Each node's compressed emission is no longer than its uncompressed
encoding: a back-reference is only emitted under the strictly-shorter
guard, and normal emissions match the uncompressed encoder node for
node. -/
theorem encode_br_le (g : List NodeD) (hwf : WfDag g) :
    ∀ (fuel i : Nat) (st : EncSt) (bytes : List Nat) (st' : EncSt)
      (ub : List Nat),
      i < fuel → i < g.length →
      sexp_to_byte_iterator_with_backrefs g fuel i st = .ok (bytes, st') →
      sexp_to_byte_iterator (denoteD g i) = .ok ub →
      bytes.length ≤ ub.length := by
  intro fuel
  induction fuel with
  | zero => intro i st bytes st' ub h1; omega
  | succ fuel ih =>
    intro i st bytes st' ub h1 h2 henc hub
    simp only [sexp_to_byte_iterator_with_backrefs] at henc
    split at henc
    · next res hbr =>
      injection henc with henc
      split at hbr
      · next off hlk =>
        split at hbr
        · next a hab =>
          split at hbr
          · next hguard =>
            injection hbr with hbr
            subst hbr
            injection henc with hb hst
            subst hb
            rw [serLens_eq_encoded_length g hwf i h2 ub hub] at hguard
            simp only [List.length_cons] <;> omega
          · cases hbr
        · cases hbr
      · cases hbr
    · next hbr =>
      split at henc
      · next bs hnode =>
        split at henc
        · next e hab => cases henc
        · next ab hab =>
          injection henc with henc
          injection henc with hb hst
          subst hb
          rw [denoteD_atom g hnode] at hub
          simp only [sexp_to_byte_iterator] at hub
          rw [hab] at hub
          injection hub with hub
          subst hub
          exact le_refl _
      · next l r hnode =>
        obtain ⟨hl, hr⟩ := wf_pair_lt hwf hnode
        split at henc
        · next e h1' => cases henc
        · next b1 st1 h1' =>
          split at henc
          · next e h2' => cases henc
          · next b2 st2 h2' =>
            injection henc with henc
            injection henc with hb hst
            subst hb
            rw [denoteD_pair g hwf hnode] at hub
            simp only [sexp_to_byte_iterator] at hub
            cases hu1 : sexp_to_byte_iterator (denoteD g l) with
            | error e => rw [hu1] at hub; simp at hub
            | ok u1 =>
              cases hu2 : sexp_to_byte_iterator (denoteD g r) with
              | error e => rw [hu1, hu2] at hub; simp at hub
              | ok u2 =>
                rw [hu1, hu2] at hub
                injection hub with hub
                subst hub
                have hle1 := ih l _ b1 st1 u1 (by omega) (by omega) h1' hu1
                have hle2 := ih r _ b2 st2 u2 (by omega) (by omega) h2' hu2
                simp only [List.length_cons, List.length_append] <;> omega

/-- C4: the compressed (backrefs-allowed) encoding of an object graph is
never longer than the uncompressed encoding of the Value it denotes. -/
theorem c4_backrefs_never_expand (g : List NodeD) (root : Nat)
    (hwf : WfDag g) (hroot : root < g.length) (bc bu : List Nat)
    (hc : as_bin_with_backrefs g root = .ok bc)
    (hu : sexp_to_byte_iterator (denoteD g root) = .ok bu) :
    bc.length ≤ bu.length := by
  unfold as_bin_with_backrefs at hc
  cases he : sexp_to_byte_iterator_with_backrefs g (root + 1) root ⟨[], 0⟩ with
  | error e => rw [he] at hc; simp [Except.map] at hc
  | ok p =>
    obtain ⟨bytes, st'⟩ := p
    rw [he] at hc
    simp only [Except.map] at hc
    injection hc with hc
    subst hc
    exact encode_br_le g hwf (root + 1) root ⟨[], 0⟩ bytes st' bu
      (by omega) hroot he hu

/-- Witness for C4 on a two-node graph sharing one atom. -/
theorem c4_backrefs_never_expand_witness :
    WfDag [NodeD.atom [1, 2, 3], NodeD.pair 0 0] ∧
    (1 : Nat) < ([NodeD.atom [1, 2, 3], NodeD.pair 0 0] : List NodeD).length ∧
    as_bin_with_backrefs [NodeD.atom [1, 2, 3], NodeD.pair 0 0] 1 =
      .ok [0xFF, 0x83, 1, 2, 3, 0xFE, 0x04] ∧
    sexp_to_byte_iterator (denoteD [NodeD.atom [1, 2, 3], NodeD.pair 0 0] 1) =
      .ok [0xFF, 0x83, 1, 2, 3, 0x83, 1, 2, 3] ∧
    ([0xFF, 0x83, 1, 2, 3, 0xFE, 0x04] : List Nat).length ≤
      ([0xFF, 0x83, 1, 2, 3, 0x83, 1, 2, 3] : List Nat).length :=
  ⟨by decide, by decide, by rfl, by rfl,
    c4_backrefs_never_expand [NodeD.atom [1, 2, 3], NodeD.pair 0 0] 1
      (by decide) (by decide) _ _ (by rfl) (by rfl)⟩

/-! ## Self-pairing compression bombs (claim C5) -/

theorem bombTree_length (n : Nat) :
    ∃ b, sexp_to_byte_iterator (bombTree n) = .ok b ∧
      b.length = 46 * 2 ^ n - 1 := by
  induction n with
  | zero =>
    refine ⟨0xAC :: TEXT, by rfl, by rfl⟩
  | succ n ih =>
    obtain ⟨b, hb, hlen⟩ := ih
    refine ⟨0xFF :: b ++ b, ?_, ?_⟩
    · simp only [bombTree, sexp_to_byte_iterator]
      rw [hb]
    · simp only [List.length_cons, List.length_append, hlen]
      have h2 : 2 ^ (n + 1) = 2 * 2 ^ n := by ring
      have hpos : 1 ≤ 2 ^ n := Nat.one_le_two_pow
      rw [h2]
      omega

theorem bombDag_denote (n : Nat) :
    ∀ (fuel k : Nat), k ≤ n → k < fuel →
      denoteAt (bombDag n) fuel k = bombTree k := by
  intro fuel
  induction fuel with
  | zero => intro k h1 h2; omega
  | succ fuel ih =>
    intro k hk hf
    cases k with
    | zero => simp [denoteAt, bombDag, bombTree]
    | succ j =>
      have hget : (bombDag n).getD (j + 1) (.atom []) = .pair j j := by
        simp only [bombDag, List.getD_cons_succ]
        rw [List.getD_eq_getElem _ _ (by simp; omega)]
        rw [List.getElem_map, List.getElem_range]
      simp only [denoteAt, hget]
      rw [ih j (by omega) (by omega)]
      rfl

theorem denoteD_bombDag (n : Nat) : denoteD (bombDag n) n = bombTree n :=
  bombDag_denote n (n + 1) n (le_refl n) (by omega)

/-- C5: the self-pairing family with shared identity.  At depth 10 the
uncompressed encoding is exactly 47 103 bytes while the compressed
encoding is 75 bytes (well under 100); at depth 20 the uncompressed
encoding is 48 234 495 bytes (over 48 000 000) while the compressed
encoding is 105 bytes (well under 200).  The graphs denote exactly the
self-pairing trees. -/
theorem c5_compression_bomb :
    (∃ b, sexp_to_byte_iterator (bombTree 10) = .ok b ∧ b.length = 47103) ∧
    (∃ L, (as_bin_with_backrefs (bombDag 10) 10).map List.length = .ok L ∧
      L < 100) ∧
    (∃ b, sexp_to_byte_iterator (bombTree 20) = .ok b ∧ 48000000 < b.length) ∧
    (∃ L, (as_bin_with_backrefs (bombDag 20) 20).map List.length = .ok L ∧
      L < 200) ∧
    denoteD (bombDag 10) 10 = bombTree 10 ∧
    denoteD (bombDag 20) 20 = bombTree 20 := by
  refine ⟨?_, ⟨75, by rfl, by norm_num⟩, ?_, ⟨105, by rfl, by norm_num⟩,
    denoteD_bombDag 10, denoteD_bombDag 20⟩
  · obtain ⟨b, hb, hlen⟩ := bombTree_length 10
    exact ⟨b, hb, by rw [hlen]; norm_num⟩
  · obtain ⟨b, hb, hlen⟩ := bombTree_length 20
    exact ⟨b, hb, by rw [hlen]; norm_num⟩

/-! ## Old-decoder rejection of compressed streams (claim C6) -/

/-- Each compressed emission either coincides byte-for-byte with the
uncompressed encoding of the node's Value, or — as soon as it contains a
back-reference — makes the backref-disabled decoder fail with
MalformedInput at any position, under any table, with any suffix. -/
theorem encode_br_dichotomy (g : List NodeD) (hwf : WfDag g) :
    ∀ (fuel i : Nat) (st : EncSt) (bytes : List Nat) (st' : EncSt),
      i < fuel →
      sexp_to_byte_iterator_with_backrefs g fuel i st = .ok (bytes, st') →
      sexp_to_byte_iterator (denoteD g i) = .ok bytes ∨
      (∀ (post : List Nat) (pos : Nat) (tbl : List (Nat × Value)),
        parseT false (bytes ++ post) pos tbl = .error .malformedInput) := by
  intro fuel
  induction fuel with
  | zero => intro i st bytes st' h1; omega
  | succ fuel ih =>
    intro i st bytes st' h1 henc
    simp only [sexp_to_byte_iterator_with_backrefs] at henc
    split at henc
    · next res hbr =>
      injection henc with henc
      split at hbr
      · next off hlk =>
        split at hbr
        · next a hab =>
          split at hbr
          · next hguard =>
            injection hbr with hbr
            subst hbr
            injection henc with hb hst
            subst hb
            refine Or.inr (fun post pos tbl => ?_)
            rw [List.cons_append]
            exact parseT_fe_disabled _ pos tbl
          · cases hbr
        · cases hbr
      · cases hbr
    · next hbr =>
      split at henc
      · next bs hnode =>
        split at henc
        · next e hab => cases henc
        · next ab hab =>
          injection henc with henc
          injection henc with hb hst
          subst hb
          refine Or.inl ?_
          rw [denoteD_atom g hnode]
          simp only [sexp_to_byte_iterator]
          exact hab
      · next l r hnode =>
        obtain ⟨hl, hr⟩ := wf_pair_lt hwf hnode
        split at henc
        · next e h1' => cases henc
        · next b1 st1 h1' =>
          split at henc
          · next e h2' => cases henc
          · next b2 st2 h2' =>
            injection henc with henc
            injection henc with hb hst
            subst hb
            rcases ih l _ b1 st1 (by omega) h1' with hL | hL
            · rcases ih r _ b2 st2 (by omega) h2' with hR | hR
              · refine Or.inl ?_
                rw [denoteD_pair g hwf hnode]
                simp only [sexp_to_byte_iterator]
                rw [hL, hR]
              · refine Or.inr (fun post pos tbl => ?_)
                have hjoin : (0xFF :: b1 ++ b2) ++ post =
                    0xFF :: (b1 ++ (b2 ++ post)) := by simp
                rw [hjoin]
                have hp1 := sexp_round_trip (denoteD g l) b1 (b2 ++ post)
                  (pos + 1) tbl hL
                exact parseT_pair_err2 false _ _ (pos) _ tbl tbl _ _ hp1
                  (hR post (pos + 1 + b1.length) tbl)
            · refine Or.inr (fun post pos tbl => ?_)
              have hjoin : (0xFF :: b1 ++ b2) ++ post =
                  0xFF :: (b1 ++ (b2 ++ post)) := by simp
              rw [hjoin]
              exact parseT_pair_err1 false _ pos tbl _
                (hL (b2 ++ post) (pos + 1) tbl)

/-- C6: whenever the compressed encoding of an object graph differs from
the uncompressed encoding of its Value, decoding it without backref
support fails with MalformedInput. -/
theorem c6_old_decoder_rejects (g : List NodeD) (root : Nat) (hwf : WfDag g)
    (bc bu : List Nat)
    (hc : as_bin_with_backrefs g root = .ok bc)
    (hu : sexp_to_byte_iterator (denoteD g root) = .ok bu)
    (hne : bc ≠ bu) :
    sexp_from_stream bc false = .error .malformedInput := by
  unfold as_bin_with_backrefs at hc
  cases he : sexp_to_byte_iterator_with_backrefs g (root + 1) root ⟨[], 0⟩ with
  | error e => rw [he] at hc; simp [Except.map] at hc
  | ok p =>
    obtain ⟨bytes, st'⟩ := p
    rw [he] at hc
    simp only [Except.map] at hc
    injection hc with hc
    subst hc
    rcases encode_br_dichotomy g hwf (root + 1) root ⟨[], 0⟩ bytes st'
      (by omega) he with hL | hR
    · rw [hu] at hL
      injection hL with hL
      exact absurd hL.symm hne
    · have := hR [] 0 []
      rw [List.append_nil] at this
      exact sexp_from_stream_of_parseT_err bytes false _ this

/-- Witness for C6 on the two-node sharing graph: its compressed encoding
contains a back-reference and the compatibility-mode decoder rejects
it. -/
theorem c6_old_decoder_rejects_witness :
    WfDag [NodeD.atom [1, 2, 3], NodeD.pair 0 0] ∧
    as_bin_with_backrefs [NodeD.atom [1, 2, 3], NodeD.pair 0 0] 1 =
      .ok [0xFF, 0x83, 1, 2, 3, 0xFE, 0x04] ∧
    sexp_to_byte_iterator (denoteD [NodeD.atom [1, 2, 3], NodeD.pair 0 0] 1) =
      .ok [0xFF, 0x83, 1, 2, 3, 0x83, 1, 2, 3] ∧
    ([0xFF, 0x83, 1, 2, 3, 0xFE, 0x04] : List Nat) ≠
      [0xFF, 0x83, 1, 2, 3, 0x83, 1, 2, 3] ∧
    sexp_from_stream [0xFF, 0x83, 1, 2, 3, 0xFE, 0x04] false =
      .error .malformedInput :=
  ⟨by decide, by rfl, by rfl, by decide,
    c6_old_decoder_rejects [NodeD.atom [1, 2, 3], NodeD.pair 0 0] 1
      (by decide) _ _ (by rfl) (by rfl) (by decide)⟩

/-! ## Compressed round-trip (claim C1, backref mode) -/

theorem reaches_lt (g : List NodeD) (hwf : WfDag g) :
    ∀ {i j : Nat}, Reaches g i j → j < i := by
  intro i j h
  induction h with
  | childL h => exact (wf_pair_lt hwf h).1
  | childR h => exact (wf_pair_lt hwf h).2
  | step h1 h2 ih1 ih2 => omega

/-- Simulation of the compressed encoder by the backref-enabled decoder:
whatever one node emits, the decoder parses back to exactly that node's
Value, keeping the encoder's identity table and the decoder's offset
table in agreement. -/
theorem encode_br_simulates (g : List NodeD) (hwf : WfDag g) :
    ∀ (fuel i : Nat) (st : EncSt) (bytes : List Nat) (st' : EncSt)
      (dtbl : List (Nat × Value)) (post : List Nat),
      i < fuel →
      sexp_to_byte_iterator_with_backrefs g fuel i st = .ok (bytes, st') →
      InvTbl g i st.tbl dtbl →
      KeysLt dtbl st.pos →
      OffLt st.tbl st.pos →
      ∃ dtbl',
        parseT true (bytes ++ post) st.pos dtbl =
          .ok (denoteD g i, post, st.pos + bytes.length, dtbl') ∧
        st'.pos = st.pos + bytes.length ∧
        1 ≤ bytes.length ∧
        TblLe dtbl dtbl' ∧
        KeysLt dtbl' st'.pos ∧
        (∀ k v, lookupTbl dtbl' k = some v →
          lookupTbl dtbl k = some v ∨ st.pos ≤ k) ∧
        lookupTbl dtbl' st.pos = some (denoteD g i) ∧
        (∀ id off, lookupTbl st'.tbl id = some off →
          lookupTbl st.tbl id = some off ∨
          lookupTbl dtbl' off = some (denoteD g id)) ∧
        OffLt st'.tbl st'.pos := by
  intro fuel
  induction fuel with
  | zero => intro i st bytes st' dtbl post h1; omega
  | succ fuel ih =>
    intro i st bytes st' dtbl post h1 henc hinv hkeys hofflt
    simp only [sexp_to_byte_iterator_with_backrefs] at henc
    split at henc
    · next res hbr =>
      injection henc with henc
      split at hbr
      · next off hlk =>
        split at hbr
        · next a hab =>
          split at hbr
          · next hguard =>
            injection hbr with hbr
            subst hbr
            injection henc with hb hst
            subst hb
            subst hst
            obtain ⟨b1, abr, ha, hblt, hdec⟩ := atom_round_trip _ a hab
            subst ha
            have hbrs : backref_from_stream ((b1 :: abr) ++ post) =
                .ok (intToBytes (st.pos - off), post) := by
              simp only [List.cons_append, backref_from_stream]
              exact hdec post
            have hoff : off < st.pos := hofflt i off hlk
            have hres : lookupTbl dtbl off = some (denoteD g i) := by
              rcases hinv i off hlk with h | h
              · exact h
              · have := reaches_lt g hwf h
                omega
            have hlk2 : lookupTbl dtbl
                (st.pos - bytesToInt (intToBytes (st.pos - off))) =
                some (denoteD g i) := by
              rw [bytesToInt_intToBytes]
              rw [show st.pos - (st.pos - off) = off by omega]
              exact hres
            have hparse := parseT_backref ((b1 :: abr) ++ post) st.pos dtbl
              _ post (denoteD g i) hbrs hlk2
            refine ⟨(st.pos, denoteD g i) :: dtbl, ?_, ?_, ?_, ?_, ?_, ?_, ?_, ?_, ?_⟩
            · have hjoin : (0xFE :: b1 :: abr) ++ post =
                  0xFE :: ((b1 :: abr) ++ post) := by simp
              rw [hjoin]
              rw [hparse]
              have harith : st.pos + 1 + (((b1 :: abr) ++ post).length -
                  post.length) = st.pos + (0xFE :: b1 :: abr).length := by
                simp [List.length_append, List.length_cons]
                omega
              rw [harith]
            · simp only [List.length_cons] <;> omega
            · simp only [List.length_append, List.length_cons] <;> omega
            · intro k v hkv
              have hk := hkeys k v hkv
              rw [lookupTbl_cons_ne _ _ (show ¬ st.pos = k by omega)]
              exact hkv
            · intro k v hkv
              by_cases hkp : st.pos = k
              · subst hkp
                simp only [List.length_cons] <;> omega
              · rw [lookupTbl_cons_ne _ _ hkp] at hkv
                have := hkeys k v hkv
                simp only [List.length_cons] <;> omega
            · intro k v hkv
              by_cases hkp : st.pos = k
              · right; omega
              · rw [lookupTbl_cons_ne _ _ hkp] at hkv
                exact Or.inl hkv
            · exact lookupTbl_cons_eq _ _ _
            · intro id off2 hlk3
              exact Or.inl hlk3
            · intro id off2 hlk3
              have := hofflt id off2 hlk3
              simp only [List.length_cons] <;> omega
          · cases hbr
        · cases hbr
      · cases hbr
    · next hbr =>
      split at henc
      · next bs hnode =>
        split at henc
        · next e hab => cases henc
        · next ab hab =>
          injection henc with henc
          injection henc with hb hst
          subst hb
          subst hst
          obtain ⟨b1, abr, ha, hblt, hdec⟩ := atom_round_trip _ ab hab
          subst ha
          have hparse := parseT_atom true b1 (abr ++ post) st.pos dtbl bs post
            (by omega) (by omega) (hdec post)
          have hdi : denoteD g i = .atom bs := denoteD_atom g hnode
          refine ⟨(st.pos, Value.atom bs) :: dtbl, ?_, ?_, ?_, ?_, ?_, ?_, ?_, ?_, ?_⟩
          · have hjoin : (b1 :: abr) ++ post = b1 :: (abr ++ post) := by simp
            rw [hjoin]
            rw [hparse]
            rw [hdi]
            have harith : st.pos + 1 + ((abr ++ post).length - post.length) =
                st.pos + (b1 :: abr).length := by
              simp [List.length_append, List.length_cons]
              omega
            rw [harith]
            rfl
          · simp only [List.length_cons]
          · simp only [List.length_cons] <;> omega
          · intro k v hkv
            have hk := hkeys k v hkv
            rw [lookupTbl_cons_ne _ _ (show ¬ st.pos = k by omega)]
            exact hkv
          · intro k v hkv
            by_cases hkp : st.pos = k
            · subst hkp
              simp only [List.length_cons] <;> omega
            · rw [lookupTbl_cons_ne _ _ hkp] at hkv
              have := hkeys k v hkv
              simp only [List.length_cons] <;> omega
          · intro k v hkv
            by_cases hkp : st.pos = k
            · right; omega
            · rw [lookupTbl_cons_ne _ _ hkp] at hkv
              exact Or.inl hkv
          · rw [hdi]
            exact lookupTbl_cons_eq _ _ _
          · intro id off2 hlk3
            by_cases hid : i = id
            · subst hid
              rw [lookupTbl_cons_eq] at hlk3
              injection hlk3 with hlk3
              subst hlk3
              right
              rw [hdi]
              exact lookupTbl_cons_eq _ _ _
            · rw [lookupTbl_cons_ne _ _ hid] at hlk3
              exact Or.inl hlk3
          · intro id off2 hlk3
            by_cases hid : i = id
            · subst hid
              rw [lookupTbl_cons_eq] at hlk3
              injection hlk3 with hlk3
              subst hlk3
              simp only [List.length_cons] <;> omega
            · rw [lookupTbl_cons_ne _ _ hid] at hlk3
              have := hofflt id off2 hlk3
              simp only [List.length_cons] <;> omega
      · next l r hnode =>
        obtain ⟨hl, hr⟩ := wf_pair_lt hwf hnode
        split at henc
        · next e h1' => cases henc
        · next b1 st1 h1' =>
          split at henc
          · next e h2' => cases henc
          · next b2 st2 h2' =>
            injection henc with henc
            injection henc with hb hst
            subst hb
            subst hst
            have hinv1 : InvTbl g l ((i, st.pos) :: st.tbl) dtbl := by
              intro id off hlk3
              by_cases hid : i = id
              · subst hid
                right
                exact Reaches.childL hnode
              · rw [lookupTbl_cons_ne _ _ hid] at hlk3
                rcases hinv id off hlk3 with h | h
                · exact Or.inl h
                · exact Or.inr (Reaches.step h (Reaches.childL hnode))
            have hkeys1 : KeysLt dtbl (st.pos + 1) := by
              intro k v hkv
              have := hkeys k v hkv
              omega
            have hoff1 : OffLt ((i, st.pos) :: st.tbl) (st.pos + 1) := by
              intro id off hlk3
              by_cases hid : i = id
              · subst hid
                rw [lookupTbl_cons_eq] at hlk3
                injection hlk3 with hlk3
                omega
              · rw [lookupTbl_cons_ne _ _ hid] at hlk3
                have := hofflt id off hlk3
                omega
            obtain ⟨dtbl1, hp1, hpos1, hlen1, hle1, hkeys2, hnew1, hself1,
              hent1, hofflt1⟩ :=
              ih l ⟨(i, st.pos) :: st.tbl, st.pos + 1⟩ b1 st1 dtbl
                (b2 ++ post) (by omega) h1' hinv1 hkeys1 hoff1
            dsimp only at hp1 hpos1 hnew1 hself1 hent1
            have hinv2 : InvTbl g r st1.tbl dtbl1 := by
              intro id off hlk3
              rcases hent1 id off hlk3 with h | h
              · by_cases hid : i = id
                · subst hid
                  rw [lookupTbl_cons_eq] at h
                  injection h with h
                  subst h
                  exact Or.inr (Reaches.childR hnode)
                · rw [lookupTbl_cons_ne _ _ hid] at h
                  rcases hinv id off h with h2 | h2
                  · exact Or.inl (hle1 _ _ h2)
                  · exact Or.inr (Reaches.step h2 (Reaches.childR hnode))
              · exact Or.inl h
            obtain ⟨dtbl2, hp2, hpos2, hlen2, hle2, hkeys3, hnew2, hself2,
              hent2, hofflt2⟩ :=
              ih r st1 b2 st2 dtbl1 post (by omega) h2' hinv2 hkeys2 hofflt1
            rw [hpos1] at hp2 hnew2 hself2 hpos2
            have hdi : denoteD g i = .pair (denoteD g l) (denoteD g r) :=
              denoteD_pair g hwf hnode
            have hppair := parseT_pair true (b1 ++ (b2 ++ post)) (b2 ++ post)
              post st.pos (st.pos + 1 + b1.length)
              (st.pos + 1 + b1.length + b2.length) dtbl dtbl1 dtbl2
              (denoteD g l) (denoteD g r) hp1 hp2
            have hkP : ∀ k v, lookupTbl dtbl2 k = some v → ¬ k = st.pos := by
              intro k v hq hkp
              subst hkp
              rcases hnew2 _ v hq with h | h
              · rcases hnew1 _ v h with h2 | h2
                · have := hkeys _ v h2
                  omega
                · omega
              · omega
            refine ⟨(st.pos, Value.pair (denoteD g l) (denoteD g r)) :: dtbl2,
              ?_, ?_, ?_, ?_, ?_, ?_, ?_, ?_, ?_⟩
            · have hjoin : (0xFF :: b1 ++ b2) ++ post =
                  0xFF :: (b1 ++ (b2 ++ post)) := by simp
              rw [hjoin]
              rw [hppair]
              rw [hdi]
              have harith : st.pos + 1 + b1.length + b2.length =
                  st.pos + (0xFF :: b1 ++ b2).length := by
                simp [List.length_append, List.length_cons]
                omega
              rw [harith]
              rfl
            · simp only [List.length_cons, List.length_append] <;> omega
            · simp only [List.length_append, List.length_cons] <;> omega
            · intro k v hkv
              have hk := hkeys k v hkv
              rw [lookupTbl_cons_ne _ _ (show ¬ st.pos = k by omega)]
              exact hle2 _ _ (hle1 _ _ hkv)
            · intro k v hkv
              by_cases hkp : st.pos = k
              · subst hkp
                omega
              · rw [lookupTbl_cons_ne _ _ hkp] at hkv
                have := hkeys3 k v hkv
                omega
            · intro k v hkv
              by_cases hkp : st.pos = k
              · right; omega
              · rw [lookupTbl_cons_ne _ _ hkp] at hkv
                rcases hnew2 k v hkv with h | h
                · rcases hnew1 k v h with h2 | h2
                  · exact Or.inl h2
                  · right; omega
                · right; omega
            · rw [hdi]
              exact lookupTbl_cons_eq _ _ _
            · intro id off2 hlk3
              rcases hent2 id off2 hlk3 with h | h
              · rcases hent1 id off2 h with h2 | h2
                · by_cases hid : i = id
                  · subst hid
                    rw [lookupTbl_cons_eq] at h2
                    injection h2 with h2
                    subst h2
                    right
                    rw [hdi]
                    exact lookupTbl_cons_eq _ _ _
                  · rw [lookupTbl_cons_ne _ _ hid] at h2
                    exact Or.inl h2
                · right
                  have hoffne : ¬ off2 = st.pos := hkP off2 _ (hle2 _ _ h2)
                  rw [lookupTbl_cons_ne _ _ (fun he => hoffne he.symm)]
                  exact hle2 _ _ h2
              · right
                have hoffne : ¬ off2 = st.pos := hkP off2 _ h
                rw [lookupTbl_cons_ne _ _ (fun he => hoffne he.symm)]
                exact h
            · exact hofflt2

/-! ## Claim C1: round trip, uncompressed and compressed -/

/-- C1: decoding inverts encoding under both modes.  (a) For every Value
`v`, whenever the uncompressed encoder succeeds with bytes `b`, the Tree
Decoder (backref support disabled) decodes `b` back to exactly `v` with
nothing left over.  (b) For every well-formed object graph `g` and root
node, whenever the compressed (backrefs-allowed) encoder succeeds with
bytes `b`, the Tree Decoder with backref support enabled decodes `b` back
to exactly the Value denoted by the root, with nothing left over — deep
structural equality is definitional equality of `Value`. -/
theorem c1_round_trip :
    (∀ (v : Value) (b : List Nat),
      sexp_to_byte_iterator v = .ok b →
      sexp_from_stream b false = .ok (v, [])) ∧
    (∀ (g : List NodeD) (root : Nat), WfDag g →
      ∀ b : List Nat, as_bin_with_backrefs g root = .ok b →
      sexp_from_stream b true = .ok (denoteD g root, [])) := by
  constructor
  · intro v b henc
    have h := sexp_round_trip v b [] 0 [] henc
    rw [List.append_nil] at h
    exact sexp_from_stream_of_parseT b false v [] (0 + b.length) [] h
  · intro g root hwf b henc
    unfold as_bin_with_backrefs at henc
    cases hq : sexp_to_byte_iterator_with_backrefs g (root + 1) root ⟨[], 0⟩ with
    | error e => rw [hq] at henc; simp [Except.map] at henc
    | ok p =>
      obtain ⟨bytes, st'⟩ := p
      rw [hq] at henc
      simp only [Except.map, Except.ok.injEq] at henc
      subst henc
      obtain ⟨dtbl', hp, -⟩ :=
        encode_br_simulates g hwf (root + 1) root ⟨[], 0⟩ bytes st' [] []
          (by omega) hq
          (by intro id off h; simp [lookupTbl] at h)
          (by intro k v h; simp [lookupTbl] at h)
          (by intro i off h; simp [lookupTbl] at h)
      rw [List.append_nil] at hp
      exact sexp_from_stream_of_parseT bytes true (denoteD g root) []
        (0 + bytes.length) dtbl' hp

/-- Witness for C1 at concrete inputs: the uncompressed encoding of
`(Atom 0x01 . Atom b"")` is `FF 01 80` and decodes back to it; the
compressed encoding of the shared pair `(a . a)` with `a = Atom 010203`
is `FF 83 01 02 03 FE 04` (second occurrence a back-reference) and
decodes back to `(a . a)`. -/
theorem c1_round_trip_witness :
    sexp_from_stream [0xFF, 0x01, 0x80] false =
      .ok (.pair (.atom [0x01]) (.atom []), []) ∧
    sexp_from_stream [0xFF, 0x83, 0x01, 0x02, 0x03, 0xFE, 0x04] true =
      .ok (.pair (.atom [0x01, 0x02, 0x03]) (.atom [0x01, 0x02, 0x03]), []) :=
  ⟨c1_round_trip.1 (.pair (.atom [0x01]) (.atom [])) [0xFF, 0x01, 0x80] rfl,
   c1_round_trip.2 [.atom [0x01, 0x02, 0x03], .pair 0 0] 1 (by decide)
     [0xFF, 0x83, 0x01, 0x02, 0x03, 0xFE, 0x04] rfl⟩
